import Mathlib

/-!
Verification of the type DA structure engine (dastructure.py) of bfh_python.

The embedding is a shallow one: each Python class becomes a Lean structure,
each mutating method becomes a state-passing function returning `Option`
(`none` models an assertion-style fatal abort), and the external collaborators
that live outside the verified file (the SummableDict linear-combination
machinery of algebra.py, the DD structure of ddstructure.py, the strand
primitives of pmc.py and the helpers of utility.py) are modelled from the
specification, as documented on each such definition.

Idempotents are an arbitrary type `I` with decidable equality; the coefficient
ring is an arbitrary `R` with decidable equality (the repository always uses
the two-element field `F2`, modelled as `ZMod 2` in concrete instances).
-/

/-- An algebra generator (strand diagram): left and right idempotents, a
multiplicity profile, the idempotent-element flag, and a tag distinguishing
generators that agree on the other data. Modelled from the spec: the concrete
strand-diagram type lives in pmc.py, outside the verified file; the verified
code only consumes the listed attributes. -/
structure AlgGen (I : Type) where
  leftIdem : I
  rightIdem : I
  multiplicity : List Nat
  isIdem : Bool
  tag : Nat
deriving DecidableEq, Repr

/-- `getLeftIdem` of an algebra generator. -/
def AlgGen.getLeftIdem {I : Type} (a : AlgGen I) : I := a.leftIdem

/-- `getRightIdem` of an algebra generator. -/
def AlgGen.getRightIdem {I : Type} (a : AlgGen I) : I := a.rightIdem

/-- `isIdempotent` predicate of an algebra generator. -/
def AlgGen.isIdempotent {I : Type} (a : AlgGen I) : Bool := a.isIdem

/-- A differential graded algebra, as consumed by dastructure.py: its list of
generators and the `mult_one` flag. Modelled from the spec: the full DGA type
lives in algebra.py, outside the verified file. -/
structure DGAlgebra (I : Type) where
  gens : List (AlgGen I)
  mult_one : Bool
deriving DecidableEq, Repr

/-- A generator of a simple type DA structure (class SimpleDAGenerator):
the owning structure (as a numeric identity standing for the Python object
identity of the parent), the type D idempotent `idem1`, the type A idempotent
`idem2`, and the name. -/
structure SimpleDAGenerator (I : Type) where
  parent : Nat
  idem1 : I
  idem2 : I
  name : Nat
deriving DecidableEq, Repr

/-- Lookup in an association-list dictionary: the value at the first matching
key, mirroring Python dict lookup. -/
def dictFind? {K V : Type} [DecidableEq K] : List (K × V) → K → Option V
  | [], _ => none
  | (k', v) :: rest, k => if k' = k then some v else dictFind? rest k

/-- Update in an association-list dictionary: replace the value at the first
matching key in place, or append a new binding, mirroring Python dict
assignment (insertion order preserved). -/
def dictInsert {K V : Type} [DecidableEq K] : List (K × V) → K → V → List (K × V)
  | [], k, v => [(k, v)]
  | (k', v') :: rest, k, v =>
      if k' = k then (k, v) :: rest else (k', v') :: dictInsert rest k v

/-- A formal linear combination, as kept by algebra.py's SummableDict: an
association list from keys to nonzero coefficients. Modelled from the spec:
algebra.py is outside the verified file; the spec states that such a
combination maps keys to nonzero ring coefficients and that addition
accumulates coefficients and removes zeroes. -/
abbrev LinComb (T R : Type) := List (T × R)

/-- The coefficient of a key in a linear combination (zero when absent). -/
def lcCoeff {T R : Type} [DecidableEq T] [Zero R] (l : LinComb T R) (t : T) : R :=
  (dictFind? l t).getD 0

/-- Add `c` times the key `t` into a linear combination, accumulating into an
existing coefficient and dropping the binding when the result is zero.
Modelled from the spec: this is SummableDict accumulation with zero removal,
restricted to the single-term additions performed by dastructure.py. -/
def lcAddTerm {T R : Type} [DecidableEq T] [AddCommMonoid R] [DecidableEq R] :
    LinComb T R → T → R → LinComb T R
  | [], t, c => if c = 0 then [] else [(t, c)]
  | (t', c') :: rest, t, c =>
      if t' = t then
        if c' + c = 0 then rest else (t, c' + c) :: rest
      else (t', c') :: lcAddTerm rest t c

/-- Key of the `da_action` table: the source generator together with the
ordered tuple of A-side algebra generators. -/
abbrev DAKey (I : Type) := SimpleDAGenerator I × List (AlgGen I)

/-- Term of a `da_action` entry: a (D-side coefficient, target generator)
pair. -/
abbrev DATerm (I : Type) := AlgGen I × SimpleDAGenerator I

/-- A simple type DA structure (class SimpleDAStructure): its own identity
(standing for the Python object identity referenced by generator parents), the
two algebras, the generator set (as a duplicate-free list in insertion order)
and the sparse operation table `da_action`. -/
structure SimpleDAStructure (I R : Type) where
  id : Nat
  algebra1 : DGAlgebra I
  algebra2 : DGAlgebra I
  generators : List (SimpleDAGenerator I)
  da_action : List (DAKey I × LinComb (DATerm I) R)
deriving DecidableEq, Repr

/-- `addGenerator`: requires the generator's parent to be this structure, then
adds it to the generator set (no effect on repeats). -/
def SimpleDAStructure.addGenerator {I R : Type} [DecidableEq I]
    (s : SimpleDAStructure I R) (g : SimpleDAGenerator I) :
    Option (SimpleDAStructure I R) :=
  if g.parent = s.id then
    some { s with generators :=
            if g ∈ s.generators then s.generators else s.generators ++ [g] }
  else none

/-- The idempotent-chain condition asserted by `addDelta` on the A-side
coefficients, transcribed from the source: for an empty tuple the two type A
idempotents agree; otherwise `gen_from.idem2` is the left idempotent of the
first coefficient, consecutive coefficients chain, and the right idempotent of
the last one is `gen_to.idem2`. -/
def addDeltaChainOK {I : Type} [DecidableEq I] (gen_from gen_to : SimpleDAGenerator I)
    (coeffs_a : List (AlgGen I)) : Bool :=
  match coeffs_a with
  | [] => decide (gen_from.idem2 = gen_to.idem2)
  | a0 :: rest =>
      decide (gen_from.idem2 = a0.leftIdem) &&
      decide (List.Chain' (fun a b => a.rightIdem = b.leftIdem) (a0 :: rest)) &&
      decide (((a0 :: rest).getLast (List.cons_ne_nil a0 rest)).rightIdem = gen_to.idem2)

/-- `addDelta`: after the contract checks (parents of both generators, the two
D-side idempotent equations on `coeff_d`, and the A-side idempotent chain),
accumulate `ring_coeff` times `(coeff_d, gen_to)` into the entry keyed by
`(gen_from, coeffs_a)` (creating it from zero if absent) and then sweep every
entry whose combination is zero out of the table. `none` models an assertion
failure. -/
def SimpleDAStructure.addDelta {I R : Type} [DecidableEq I] [AddCommMonoid R] [DecidableEq R]
    (s : SimpleDAStructure I R) (gen_from gen_to : SimpleDAGenerator I)
    (coeff_d : AlgGen I) (coeffs_a : List (AlgGen I)) (ring_coeff : R) :
    Option (SimpleDAStructure I R) :=
  if gen_from.parent = s.id ∧ gen_to.parent = s.id then
    if coeff_d.getRightIdem = gen_to.idem1 then
      if coeff_d.getLeftIdem = gen_from.idem1 then
        if addDeltaChainOK gen_from gen_to coeffs_a then
          let key : DAKey I := (gen_from, coeffs_a)
          let cur := (dictFind? s.da_action key).getD []
          let upd := dictInsert s.da_action key
            (lcAddTerm cur (coeff_d, gen_to) ring_coeff)
          some { s with da_action := upd.filter (fun kv => !kv.2.isEmpty) }
        else none
      else none
    else none
  else none

example :
    let g : SimpleDAGenerator Nat := ⟨0, 1, 2, 0⟩
    let d : AlgGen Nat := ⟨1, 1, [], true, 0⟩
    let s : SimpleDAStructure Nat (ZMod 2) := ⟨0, ⟨[], false⟩, ⟨[], false⟩, [g], []⟩
    SimpleDAStructure.addDelta s g g d [] 1 =
      some ⟨0, ⟨[], false⟩, ⟨[], false⟩, [g], [((g, []), [((d, g), 1)])]⟩ := by
  decide

/-- A generator of the DD structure used by `testDelta`. Modelled from the
spec: ddstructure.SimpleDDGenerator is outside the verified file; it is
constructed from the two idempotents and the name. -/
structure SimpleDDGenerator (I : Type) where
  idem1 : I
  idem2 : I
  name : Nat
deriving DecidableEq, Repr

/-- The cobar-algebra generator wrapping the A-side tuple in `testDelta`.
Modelled from the spec: algebra.TensorStarGenerator is outside the verified
file; it wraps the ordered tuple of algebra generators together with an
optional idempotent marker. -/
structure TensorStarGenerator (I : Type) where
  coeffs : List (AlgGen I)
  idem : Option I
deriving DecidableEq, Repr

/-- The DD structure consulted by `testDelta`. Modelled from the spec:
ddstructure.SimpleDDStructure is outside the verified file; as consumed here
it records its generators and the operations added through its `addDelta`. -/
structure SimpleDDStructure (I R : Type) where
  generators : List (SimpleDDGenerator I)
  deltas : List (SimpleDDGenerator I × SimpleDDGenerator I × AlgGen I ×
                 TensorStarGenerator I × R)
deriving DecidableEq, Repr

/-- The DD generator corresponding to a DA generator in `testDelta`: same
idempotent pair, same name. -/
def ddGenOf {I : Type} (g : SimpleDAGenerator I) : SimpleDDGenerator I :=
  ⟨g.idem1, g.idem2, g.name⟩

/-- The `dagen_to_ddgen_map` dictionary built by `testDelta`'s first loop: it
holds exactly the generators of the structure, each mapped to its DD
generator. -/
def SimpleDAStructure.dagen_to_ddgen_map {I R : Type} [DecidableEq I]
    (s : SimpleDAStructure I R) :
    List (SimpleDAGenerator I × SimpleDDGenerator I) :=
  s.generators.foldl (fun m gen => dictInsert m gen (ddGenOf gen)) []

/-- One `da_action` term converted to a DD operation in `testDelta`: the
idempotent marker is `gen_from.idem2` when the A-side tuple is empty (in which
case the source asserts `idem == gen_to.idem2`, modelled by `none` on
failure), and is left unset otherwise; `gen_from` and `gen_to` are looked up
in `dagen_to_ddgen_map`, and a generator absent from the dictionary is a
Python KeyError, modelled by `none`. -/
def ddDeltaOfTerm {I R : Type} [DecidableEq I]
    (dagen_to_ddgen_map : List (SimpleDAGenerator I × SimpleDDGenerator I))
    (gen_from : SimpleDAGenerator I) (coeffs_a : List (AlgGen I))
    (t : DATerm I × R) :
    Option (SimpleDDGenerator I × SimpleDDGenerator I × AlgGen I ×
            TensorStarGenerator I × R) :=
  let gen_to := t.1.2
  match coeffs_a with
  | [] =>
      if gen_from.idem2 = gen_to.idem2 then do
        let dd_from ← dictFind? dagen_to_ddgen_map gen_from
        let dd_to ← dictFind? dagen_to_ddgen_map gen_to
        some (dd_from, dd_to, t.1.1, ⟨[], some gen_from.idem2⟩, t.2)
      else none
  | a0 :: rest => do
      let dd_from ← dictFind? dagen_to_ddgen_map gen_from
      let dd_to ← dictFind? dagen_to_ddgen_map gen_to
      some (dd_from, dd_to, t.1.1, ⟨a0 :: rest, none⟩, t.2)

/-- The DD structure built by `testDelta`: one DD generator per DA generator
and one DD operation per `da_action` term; `none` models the assertion
failure on an empty-tuple term whose type A idempotents disagree, or the
KeyError of a term generator that is not in the structure's generator set
(and hence not in `dagen_to_ddgen_map`). -/
def SimpleDAStructure.testDeltaBuild {I R : Type} [DecidableEq I]
    (s : SimpleDAStructure I R) : Option (SimpleDDStructure I R) := do
  let ops ← (s.da_action.flatMap
      (fun kv => kv.2.map
        (fun t => ddDeltaOfTerm s.dagen_to_ddgen_map kv.1.1 kv.1.2 t))).mapM
      (fun o => o)
  pure ⟨s.generators.map ddGenOf, ops⟩

/-- `testDelta`: build the DD structure and delegate the verdict to its own
consistency check (an external collaborator, abstracted as the function
argument); the DA structure itself is returned unchanged, as the source
method never assigns to any of its own fields. -/
def SimpleDAStructure.testDelta {I R : Type} [DecidableEq I]
    (ddVerdict : SimpleDDStructure I R → Bool) (s : SimpleDAStructure I R) :
    Option (Bool × SimpleDAStructure I R) :=
  (s.testDeltaBuild).map (fun dd => (ddVerdict dd, s))

/-- A pointed matched circle, as consumed by `identityDA`: it exposes its
algebra and its list of idempotents. Modelled from the spec: pmc.py is
outside the verified file. -/
structure PMC (I : Type) where
  algebra : DGAlgebra I
  idempotents : List I
deriving Repr

/-- `identityDA`: one generator per idempotent (both idempotents equal to it,
named by index), and for every non-idempotent algebra generator one operation
from the generator of its left idempotent to the generator of its right
idempotent with D-side coefficient the generator itself, A-side input the
one-element tuple of itself, and ring coefficient 1. The idempotent-to-
generator dictionary lookup fails (Python KeyError, modelled by `none`) when
a needed idempotent was never registered. -/
def identityDAGenStep {I : Type} [DecidableEq I]
    (acc : List (I × SimpleDAGenerator I) × SimpleDAStructure I (ZMod 2))
    (p : Nat × I) :
    Option (List (I × SimpleDAGenerator I) × SimpleDAStructure I (ZMod 2)) := do
  let cur_gen : SimpleDAGenerator I := ⟨acc.2.id, p.2, p.2, p.1⟩
  let d ← acc.2.addGenerator cur_gen
  pure (dictInsert acc.1 p.2 cur_gen, d)

def identityDADeltaStep {I : Type} [DecidableEq I]
    (idem_to_gen_map : List (I × SimpleDAGenerator I))
    (d : SimpleDAStructure I (ZMod 2)) (g : AlgGen I) :
    Option (SimpleDAStructure I (ZMod 2)) :=
  if g.isIdempotent then pure d
  else do
    let gen_from ← dictFind? idem_to_gen_map g.getLeftIdem
    let gen_to ← dictFind? idem_to_gen_map g.getRightIdem
    d.addDelta gen_from gen_to g [g] 1

def identityDA {I : Type} [DecidableEq I] (pmc : PMC I) :
    Option (SimpleDAStructure I (ZMod 2)) := do
  let alg := pmc.algebra
  let dastr0 : SimpleDAStructure I (ZMod 2) :=
    { id := 0, algebra1 := alg, algebra2 := alg, generators := [], da_action := [] }
  let (idem_to_gen_map, dastr1) ←
    (pmc.idempotents.enum).foldlM identityDAGenStep ([], dastr0)
  alg.gens.foldlM (identityDADeltaStep idem_to_gen_map) dastr1

/-- A chord (class Strands of pmc.py), as consumed by `AddChordToDA`.
Modelled from the spec: pmc.py is outside the verified file; a chord carries
its multiplicity-one flag, its multiplicity profile, its idempotent-element
flag, a distinguishing tag, and the graph of its rightward idempotent
propagation as a finite list of pairs. -/
structure Strands (I : Type) where
  tag : Nat
  multOne : Bool
  multiplicity : List Nat
  isIdem : Bool
  prop : List (I × I)
deriving DecidableEq, Repr

/-- `isMultOne` of a chord. -/
def Strands.isMultOne {I : Type} (c : Strands I) : Bool := c.multOne

/-- Propagate an idempotent rightward through a chord; `none` signals
incompatibility. Modelled from the spec: the propagation itself is a pmc.py
primitive, represented here by the finite graph carried by the chord. -/
def Strands.propagateRight {I : Type} [DecidableEq I] (c : Strands I) (i : I) :
    Option I :=
  (c.prop.find? (fun p => decide (p.1 = i))).map Prod.snd

/-- Idempotent compatibility of a chord with a pair of idempotents. Modelled
from the spec: compatibility holds exactly when propagating the left
idempotent rightward through the chord yields the right idempotent. -/
def Strands.idemCompatible {I : Type} [DecidableEq I] (c : Strands I) (i j : I) :
    Bool :=
  decide (c.propagateRight i = some j)

/-- Materialize the algebra generator of a chord anchored at a left
idempotent. Modelled from the spec: its left idempotent is the anchor, its
right idempotent is the propagated idempotent, and the construction fails
when propagation fails. -/
def StrandDiagram {I : Type} [DecidableEq I] (c : Strands I) (i : I) :
    Option (AlgGen I) :=
  (c.propagateRight i).map (fun j => ⟨i, j, c.multiplicity, c.isIdem, c.tag⟩)

/-- The A-side walk of `AddChordToDA`: starting from `cur`, propagate through
each chord in order, materializing the algebra generator anchored at the
pre-propagation idempotent at every step; `none` when propagation fails at
some step. Returns the materialized generators and the final idempotent. -/
def propagateSequence {I : Type} [DecidableEq I] :
    I → List (Strands I) → Option (List (AlgGen I) × I)
  | cur, [] => some ([], cur)
  | cur, c :: rest => do
      let next_idem ← c.propagateRight cur
      let sd ← StrandDiagram c cur
      let (alg_a, fin) ← propagateSequence next_idem rest
      pure (sd :: alg_a, fin)

/-- The body of `AddChordToDA` for one ordered pair `(x, y)` of generators:
skip (state unchanged) on a multiplicity-one rejection, an idempotent
incompatibility, a failed A-side walk, or a final idempotent different from
`y.idem2`; otherwise register the operation through `addDelta` with ring
coefficient 1. -/
def addChordPair {I R : Type} [DecidableEq I] [AddCommMonoid R] [One R] [DecidableEq R]
    (coeff_d : Strands I) (coeffs_a : List (Strands I))
    (s : SimpleDAStructure I R) (x y : SimpleDAGenerator I) :
    Option (SimpleDAStructure I R) :=
  if s.algebra1.mult_one && !coeff_d.isMultOne then some s
  else if s.algebra2.mult_one && !(coeffs_a.all (fun c => c.isMultOne)) then some s
  else if !(coeff_d.idemCompatible x.idem1 y.idem1) then some s
  else do
    let alg_d ← StrandDiagram coeff_d x.idem1
    match propagateSequence x.idem2 coeffs_a with
    | none => some s
    | some (alg_a, cur_idem) =>
        if cur_idem = y.idem2 then s.addDelta x y alg_d alg_a 1 else some s

/-- `AddChordToDA`: run the per-pair body over every ordered pair of existing
generators, threading the structure through. -/
def AddChordToDA {I R : Type} [DecidableEq I] [AddCommMonoid R] [One R] [DecidableEq R]
    (s : SimpleDAStructure I R) (coeff_d : Strands I) (coeffs_a : List (Strands I)) :
    Option (SimpleDAStructure I R) :=
  s.generators.foldlM
    (fun st x => s.generators.foldlM
      (fun st2 y => addChordPair coeff_d coeffs_a st2 x y) st)
    s

/-- `sumColumns`: the componentwise sum of the given rows over the given
number of columns, a missing entry counting as zero. Modelled from the spec:
utility.sumColumns is outside the verified file. -/
def sumColumns (rows : List (List Nat)) (n : Nat) : List Nat :=
  (List.range n).map (fun i => (rows.map (fun r => r.getD i 0)).sum)

/-- `toStrWithMultA`: render the header and then every `da_action` entry
whose total A-side multiplicity profile over `mult_a.length` columns equals
`mult_a` exactly, in table order; the rendering of a single entry is an
external concern (Python `%` formatting of foreign objects), abstracted as
the function argument. -/
def SimpleDAStructure.toStrWithMultA {I R : Type}
    (render : DAKey I × LinComb (DATerm I) R → String)
    (s : SimpleDAStructure I R) (mult_a : List Nat) : String :=
  s.da_action.foldl
    (fun result kv =>
      let total_mult := sumColumns (kv.1.2.map (fun c => c.multiplicity)) mult_a.length
      if mult_a = total_mult then result ++ render kv else result)
    "Type DA Structure.\n"

/-- `DAStrFromChords`: one generator per idempotent pair (named by index),
then one `AddChordToDA` pass per chord pair. -/
def DAStrFromChords {I R : Type} [DecidableEq I] [AddCommMonoid R] [One R] [DecidableEq R]
    (alg1 alg2 : DGAlgebra I) (idem_pairs : List (I × I))
    (chord_pairs : List (Strands I × List (Strands I))) :
    Option (SimpleDAStructure I R) := do
  let dastr0 : SimpleDAStructure I R :=
    { id := 0, algebra1 := alg1, algebra2 := alg2, generators := [], da_action := [] }
  let dastr1 ← (idem_pairs.enum).foldlM
    (fun (d : SimpleDAStructure I R) p =>
      d.addGenerator ⟨d.id, p.2.1, p.2.2, p.1⟩)
    dastr0
  chord_pairs.foldlM (fun d cp => AddChordToDA d cp.1 cp.2) dastr1

/-- One construction call on a simple DA structure: either an `addGenerator`
or an `addDelta`. -/
inductive DAStep (I R : Type) where
  | addGen (g : SimpleDAGenerator I)
  | addDel (gen_from gen_to : SimpleDAGenerator I) (coeff_d : AlgGen I)
           (coeffs_a : List (AlgGen I)) (ring_coeff : R)

/-- Apply one construction call. -/
def applyStep {I R : Type} [DecidableEq I] [AddCommMonoid R] [DecidableEq R]
    (s : SimpleDAStructure I R) : DAStep I R → Option (SimpleDAStructure I R)
  | .addGen g => s.addGenerator g
  | .addDel gf gt cd cas c => s.addDelta gf gt cd cas c

/-- Apply a sequence of construction calls, aborting at the first failure. -/
def applySteps {I R : Type} [DecidableEq I] [AddCommMonoid R] [DecidableEq R]
    (s : SimpleDAStructure I R) : List (DAStep I R) → Option (SimpleDAStructure I R)
  | [] => some s
  | st :: rest => (applyStep s st).bind (fun s' => applySteps s' rest)

/-- The coefficient the `da_action` table assigns to a term under a key (zero
when either is absent). -/
def actionCoeff {I R : Type} [DecidableEq I] [Zero R]
    (s : SimpleDAStructure I R) (k : DAKey I) (t : DATerm I) : R :=
  lcCoeff ((dictFind? s.da_action k).getD []) t

/-- Well-formedness of the operation table: keys are duplicate-free, and
every stored combination is duplicate-free on terms, free of zero
coefficients, and nonempty. -/
def tableWF {I R : Type} [DecidableEq I] [Zero R]
    (s : SimpleDAStructure I R) : Prop :=
  (s.da_action.map Prod.fst).Nodup ∧
  ∀ kv ∈ s.da_action,
    (kv.2.map Prod.fst).Nodup ∧ (∀ tc ∈ kv.2, tc.2 ≠ (0 : R)) ∧ kv.2 ≠ []

/-- Every generator appearing in a key or a value of `da_action` has parent
equal to the structure. -/
def actionParentsOK {I R : Type} (s : SimpleDAStructure I R) : Prop :=
  ∀ kv ∈ s.da_action,
    kv.1.1.parent = s.id ∧ ∀ tc ∈ kv.2, tc.1.2.parent = s.id


section DictLemmas

variable {K V : Type} [DecidableEq K]

theorem dictFind?_insert_self (d : List (K × V)) (k : K) (v : V) :
    dictFind? (dictInsert d k v) k = some v := by
  induction d with
  | nil => simp [dictInsert, dictFind?]
  | cons kv rest ih =>
      obtain ⟨k', v'⟩ := kv
      by_cases h : k' = k
      · simp [dictInsert, h, dictFind?]
      · simp [dictInsert, h, dictFind?, ih]

theorem dictFind?_insert_ne (d : List (K × V)) (k k' : K) (v : V) (h : k' ≠ k) :
    dictFind? (dictInsert d k v) k' = dictFind? d k' := by
  have hne : ¬ (k = k') := fun h' => h h'.symm
  induction d with
  | nil => simp [dictInsert, dictFind?, hne]
  | cons kv rest ih =>
      obtain ⟨k0, v0⟩ := kv
      by_cases h0 : k0 = k
      · subst h0
        simp [dictInsert, dictFind?, hne]
      · by_cases h1 : k0 = k'
        · simp [dictInsert, dictFind?, h0, h1, hne, h]
        · simp [dictInsert, dictFind?, h0, h1, ih]

theorem mem_dictInsert {d : List (K × V)} {k : K} {v : V} {kv : K × V}
    (h : kv ∈ dictInsert d k v) : kv = (k, v) ∨ kv ∈ d := by
  induction d with
  | nil => simpa [dictInsert] using h
  | cons kv0 rest ih =>
      obtain ⟨k0, v0⟩ := kv0
      by_cases h0 : k0 = k
      · simp only [dictInsert, if_pos h0, List.mem_cons] at h
        rcases h with h1 | h1
        · exact Or.inl h1
        · exact Or.inr (List.mem_cons_of_mem _ h1)
      · simp only [dictInsert, if_neg h0, List.mem_cons] at h
        rcases h with h1 | h1
        · exact Or.inr (h1 ▸ List.mem_cons_self _ _)
        · rcases ih h1 with h2 | h2
          · exact Or.inl h2
          · exact Or.inr (List.mem_cons_of_mem _ h2)

theorem dictFind?_eq_none_iff {d : List (K × V)} {k : K} :
    dictFind? d k = none ↔ k ∉ d.map Prod.fst := by
  induction d with
  | nil => simp [dictFind?]
  | cons kv rest ih =>
      obtain ⟨k0, v0⟩ := kv
      by_cases h0 : k0 = k
      · simp [dictFind?, h0]
      · have h0' : ¬ (k = k0) := fun h' => h0 h'.symm
        simp [dictFind?, h0, h0', ih]

theorem dictFind?_mem {d : List (K × V)} {k : K} {v : V}
    (h : dictFind? d k = some v) : (k, v) ∈ d := by
  induction d with
  | nil => simp [dictFind?] at h
  | cons kv rest ih =>
      obtain ⟨k0, v0⟩ := kv
      by_cases h0 : k0 = k
      · subst h0
        rw [dictFind?, if_pos rfl, Option.some.injEq] at h
        subst h
        exact List.mem_cons_self _ _
      · rw [dictFind?, if_neg h0] at h
        exact List.mem_cons_of_mem _ (ih h)

theorem dictInsert_keys (d : List (K × V)) (k : K) (v : V) :
    (dictInsert d k v).map Prod.fst =
      if k ∈ d.map Prod.fst then d.map Prod.fst else d.map Prod.fst ++ [k] := by
  induction d with
  | nil => simp [dictInsert]
  | cons kv rest ih =>
      obtain ⟨k0, v0⟩ := kv
      by_cases h0 : k0 = k
      · simp [dictInsert, h0]
      · have h0' : ¬ (k = k0) := fun h' => h0 h'.symm
        by_cases h1 : k ∈ rest.map Prod.fst
        · simp [dictInsert, h0, h0', h1, ih]
        · simp [dictInsert, h0, h0', h1, ih]

theorem dictInsert_keys_nodup {d : List (K × V)} (k : K) (v : V)
    (h : (d.map Prod.fst).Nodup) : ((dictInsert d k v).map Prod.fst).Nodup := by
  rw [dictInsert_keys]
  by_cases h1 : k ∈ d.map Prod.fst
  · simpa [h1] using h
  · rw [if_neg h1]
    refine List.Nodup.append h (List.nodup_singleton k) ?_
    intro a ha hb
    rw [List.mem_singleton] at hb
    exact h1 (hb ▸ ha)

theorem dictFind?_filter {d : List (K × V)} {k : K} (p : K × V → Bool)
    (hnd : (d.map Prod.fst).Nodup) :
    dictFind? (d.filter p) k =
      (dictFind? d k).bind (fun v => if p (k, v) then some v else none) := by
  induction d with
  | nil => simp [dictFind?]
  | cons kv rest ih =>
      obtain ⟨k0, v0⟩ := kv
      simp only [List.map_cons, List.nodup_cons] at hnd
      by_cases h0 : k0 = k
      · subst h0
        have hnone : dictFind? (rest.filter p) k0 = none := by
          rw [dictFind?_eq_none_iff]
          intro hmem
          rcases List.mem_map.mp hmem with ⟨x, hx, hfx⟩
          exact hnd.1 (List.mem_map.mpr ⟨x, List.mem_of_mem_filter hx, hfx⟩)
        by_cases hp : p (k0, v0)
        · simp [List.filter_cons, hp, dictFind?]
        · simp [List.filter_cons, hp, dictFind?, hnone]
      · by_cases hp : p (k0, v0)
        · simp [List.filter_cons, hp, dictFind?, h0, ih hnd.2]
        · simp [List.filter_cons, hp, dictFind?, h0, ih hnd.2]

theorem dictInsert_find?_self {d : List (K × V)} {k : K} {v : V}
    (h : dictFind? d k = some v) : dictInsert d k v = d := by
  induction d with
  | nil => simp [dictFind?] at h
  | cons kv rest ih =>
      obtain ⟨k0, v0⟩ := kv
      by_cases h0 : k0 = k
      · subst h0
        rw [dictFind?, if_pos rfl, Option.some.injEq] at h
        simp [dictInsert, h]
      · rw [dictFind?, if_neg h0] at h
        simp [dictInsert, h0, ih h]

end DictLemmas

section LinCombLemmas

variable {T R : Type} [DecidableEq T] [AddCommMonoid R] [DecidableEq R]

theorem lcCoeff_addTerm (l : LinComb T R) (t t' : T) (c : R)
    (hnd : (l.map Prod.fst).Nodup) :
    lcCoeff (lcAddTerm l t c) t' = lcCoeff l t' + (if t' = t then c else 0) := by
  induction l with
  | nil =>
      by_cases h : t' = t
      · subst h
        by_cases hc : c = 0
        · simp [lcAddTerm, lcCoeff, dictFind?, hc]
        · simp [lcAddTerm, lcCoeff, dictFind?, hc]
      · have h' : ¬ (t = t') := fun h0 => h h0.symm
        by_cases hc : c = 0
        · simp [lcAddTerm, lcCoeff, dictFind?, hc, h]
        · simp [lcAddTerm, lcCoeff, dictFind?, hc, h, h']
  | cons tc rest ih =>
      obtain ⟨t0, c0⟩ := tc
      simp only [List.map_cons, List.nodup_cons] at hnd
      by_cases h0 : t0 = t
      · subst h0
        by_cases hz : c0 + c = 0
        · rw [lcAddTerm, if_pos rfl, if_pos hz]
          by_cases h : t' = t0
          · subst h
            have : dictFind? rest t' = none := by
              rw [dictFind?_eq_none_iff]
              exact hnd.1
            simp [lcCoeff, dictFind?, this, hz]
          · have h' : ¬ (t0 = t') := fun h0 => h h0.symm
            simp [lcCoeff, dictFind?, h, h']
        · rw [lcAddTerm, if_pos rfl, if_neg hz]
          by_cases h : t' = t0
          · subst h
            simp [lcCoeff, dictFind?]
          · have h' : ¬ (t0 = t') := fun h0 => h h0.symm
            simp [lcCoeff, dictFind?, h, h']
      · rw [lcAddTerm, if_neg h0]
        by_cases h : t' = t0
        · subst h
          have ht : ¬ (t' = t) := fun h1 => h0 h1
          simp [lcCoeff, dictFind?, ht]
        · have h' : ¬ (t0 = t') := fun h1 => h h1.symm
          have := ih hnd.2
          simp only [lcCoeff, dictFind?, if_neg h'] at this ⊢
          exact this

theorem mem_lcAddTerm {l : LinComb T R} {t : T} {c : R} {tc : T × R}
    (h : tc ∈ lcAddTerm l t c) : tc.1 = t ∨ tc ∈ l := by
  induction l with
  | nil =>
      by_cases hc : c = 0
      · simp [lcAddTerm, hc] at h
      · simp only [lcAddTerm, if_neg hc, List.mem_singleton] at h
        exact Or.inl (by rw [h])
  | cons tc0 rest ih =>
      obtain ⟨t0, c0⟩ := tc0
      by_cases h0 : t0 = t
      · by_cases hz : c0 + c = 0
        · rw [lcAddTerm, if_pos h0, if_pos hz] at h
          exact Or.inr (List.mem_cons_of_mem _ h)
        · rw [lcAddTerm, if_pos h0, if_neg hz] at h
          rcases List.mem_cons.mp h with h1 | h1
          · exact Or.inl (by rw [h1])
          · exact Or.inr (List.mem_cons_of_mem _ h1)
      · rw [lcAddTerm, if_neg h0] at h
        rcases List.mem_cons.mp h with h1 | h1
        · exact Or.inr (h1 ▸ List.mem_cons_self _ _)
        · rcases ih h1 with h2 | h2
          · exact Or.inl h2
          · exact Or.inr (List.mem_cons_of_mem _ h2)

theorem lcAddTerm_keys_nodup {l : LinComb T R} (t : T) (c : R)
    (hnd : (l.map Prod.fst).Nodup) : ((lcAddTerm l t c).map Prod.fst).Nodup := by
  induction l with
  | nil =>
      by_cases hc : c = 0
      · simp [lcAddTerm, hc]
      · simp [lcAddTerm, hc]
  | cons tc0 rest ih =>
      obtain ⟨t0, c0⟩ := tc0
      simp only [List.map_cons, List.nodup_cons] at hnd
      by_cases h0 : t0 = t
      · subst h0
        by_cases hz : c0 + c = 0
        · rw [lcAddTerm, if_pos rfl, if_pos hz]
          exact hnd.2
        · rw [lcAddTerm, if_pos rfl, if_neg hz]
          simpa using hnd
      · rw [lcAddTerm, if_neg h0]
        simp only [List.map_cons, List.nodup_cons]
        refine ⟨?_, ih hnd.2⟩
        intro hmem
        rcases List.mem_map.mp hmem with ⟨x, hx, hfx⟩
        rcases mem_lcAddTerm hx with h1 | h1
        · exact h0 (by rw [← hfx, h1])
        · exact hnd.1 (List.mem_map.mpr ⟨x, h1, hfx⟩)

theorem lcAddTerm_coeff_ne_zero {l : LinComb T R} {t : T} {c : R}
    (h : ∀ tc ∈ l, tc.2 ≠ (0 : R)) :
    ∀ tc ∈ lcAddTerm l t c, tc.2 ≠ (0 : R) := by
  induction l with
  | nil =>
      by_cases hc : c = 0
      · simp [lcAddTerm, hc]
      · simp [lcAddTerm, hc]
  | cons tc0 rest ih =>
      obtain ⟨t0, c0⟩ := tc0
      intro tc htc
      by_cases h0 : t0 = t
      · by_cases hz : c0 + c = 0
        · rw [lcAddTerm, if_pos h0, if_pos hz] at htc
          exact h tc (List.mem_cons_of_mem _ htc)
        · rw [lcAddTerm, if_pos h0, if_neg hz] at htc
          rcases List.mem_cons.mp htc with h1 | h1
          · rw [h1]
            exact hz
          · exact h tc (List.mem_cons_of_mem _ h1)
      · rw [lcAddTerm, if_neg h0] at htc
        rcases List.mem_cons.mp htc with h1 | h1
        · exact h1 ▸ h (t0, c0) (List.mem_cons_self _ _)
        · exact ih (fun x hx => h x (List.mem_cons_of_mem _ hx)) tc h1

theorem lcAddTerm_zero {l : LinComb T R} (t : T)
    (h : ∀ tc ∈ l, tc.2 ≠ (0 : R)) : lcAddTerm l t (0 : R) = l := by
  induction l with
  | nil => simp [lcAddTerm]
  | cons tc0 rest ih =>
      obtain ⟨t0, c0⟩ := tc0
      by_cases h0 : t0 = t
      · subst h0
        have hc0 : c0 ≠ 0 := h (t0, c0) (List.mem_cons_self _ _)
        rw [lcAddTerm, if_pos rfl, if_neg (by simpa using hc0)]
        simp
      · rw [lcAddTerm, if_neg h0]
        rw [ih (fun x hx => h x (List.mem_cons_of_mem _ hx))]

end LinCombLemmas


section AddDeltaLemmas

variable {I R : Type} [DecidableEq I] [AddCommMonoid R] [DecidableEq R]

theorem addDelta_isSome_iff (s : SimpleDAStructure I R) (gf gt : SimpleDAGenerator I)
    (cd : AlgGen I) (cas : List (AlgGen I)) (c : R) :
    (s.addDelta gf gt cd cas c).isSome ↔
      (gf.parent = s.id ∧ gt.parent = s.id) ∧ cd.getRightIdem = gt.idem1 ∧
      cd.getLeftIdem = gf.idem1 ∧ addDeltaChainOK gf gt cas = true := by
  rw [SimpleDAStructure.addDelta]
  split_ifs with h1 h2 h3 h4 <;> simp_all

theorem addDelta_eq {s s' : SimpleDAStructure I R} {gf gt : SimpleDAGenerator I}
    {cd : AlgGen I} {cas : List (AlgGen I)} {c : R}
    (h : s.addDelta gf gt cd cas c = some s') :
    s'.id = s.id ∧ s'.algebra1 = s.algebra1 ∧ s'.algebra2 = s.algebra2 ∧
    s'.generators = s.generators ∧
    s'.da_action = (dictInsert s.da_action (gf, cas)
        (lcAddTerm ((dictFind? s.da_action (gf, cas)).getD []) (cd, gt) c)).filter
        (fun kv => !kv.2.isEmpty) := by
  rw [SimpleDAStructure.addDelta] at h
  split_ifs at h
  rw [Option.some.injEq] at h
  subst h
  exact ⟨rfl, rfl, rfl, rfl, rfl⟩

theorem cur_lc_wf {s : SimpleDAStructure I R} (hwf : tableWF s) (k : DAKey I) :
    ((((dictFind? s.da_action k).getD []).map Prod.fst).Nodup ∧
      ∀ tc ∈ (dictFind? s.da_action k).getD [], tc.2 ≠ (0 : R)) := by
  cases hfind : dictFind? s.da_action k with
  | none => simp
  | some v =>
      have hv := hwf.2 (k, v) (dictFind?_mem hfind)
      exact ⟨hv.1, hv.2.1⟩

theorem actionCoeff_addDelta {s s' : SimpleDAStructure I R} {gf gt : SimpleDAGenerator I}
    {cd : AlgGen I} {cas : List (AlgGen I)} {c : R}
    (hwf : tableWF s) (h : s.addDelta gf gt cd cas c = some s')
    (k : DAKey I) (t : DATerm I) :
    actionCoeff s' k t = actionCoeff s k t +
      (if k = (gf, cas) ∧ t = (cd, gt) then c else 0) := by
  obtain ⟨-, -, -, -, hact⟩ := addDelta_eq h
  set cur := (dictFind? s.da_action (gf, cas)).getD [] with hcurdef
  set newLC := lcAddTerm cur (cd, gt) c with hnew
  have hkeys := dictInsert_keys_nodup (d := s.da_action) (gf, cas) newLC hwf.1
  by_cases hk : k = (gf, cas)
  · have hfind : dictFind? s'.da_action k =
        (if !newLC.isEmpty then some newLC else none) := by
      rw [hact, dictFind?_filter _ hkeys, hk, dictFind?_insert_self]
      rfl
    have hlc : actionCoeff s' k t = lcCoeff newLC t := by
      rw [actionCoeff, hfind]
      by_cases hemp : newLC = []
      · simp [hemp]
      · simp [hemp]
    rw [hlc, hnew, lcCoeff_addTerm _ _ _ _ (cur_lc_wf hwf _).1]
    simp [actionCoeff, hk, ← hcurdef]
  · have hfind : dictFind? s'.da_action k =
        (dictFind? s.da_action k).bind
          (fun v => if !v.isEmpty then some v else none) := by
      rw [hact, dictFind?_filter _ hkeys, dictFind?_insert_ne _ _ _ _ hk]
    rw [actionCoeff, hfind]
    cases hfv : dictFind? s.da_action k with
    | none => simp [actionCoeff, hfv, hk]
    | some v =>
        have hv := hwf.2 (k, v) (dictFind?_mem hfv)
        simp [actionCoeff, hfv, hk, hv.2.2]

theorem tableWF_addDelta {s s' : SimpleDAStructure I R} {gf gt : SimpleDAGenerator I}
    {cd : AlgGen I} {cas : List (AlgGen I)} {c : R}
    (hwf : tableWF s) (h : s.addDelta gf gt cd cas c = some s') : tableWF s' := by
  obtain ⟨-, -, -, -, hact⟩ := addDelta_eq h
  set cur := (dictFind? s.da_action (gf, cas)).getD [] with hcurdef
  set newLC := lcAddTerm cur (cd, gt) c with hnew
  constructor
  · rw [hact]
    exact ((List.filter_sublist _).map Prod.fst).nodup
      (dictInsert_keys_nodup (gf, cas) newLC hwf.1)
  · intro kv hkv
    rw [hact] at hkv
    have hmem := List.mem_of_mem_filter hkv
    have hfil := List.of_mem_filter hkv
    have hne : kv.2 ≠ [] := by simpa using hfil
    rcases mem_dictInsert hmem with h1 | h1
    · subst h1
      refine ⟨?_, ?_, hne⟩
      · exact lcAddTerm_keys_nodup _ _ (cur_lc_wf hwf _).1
      · exact lcAddTerm_coeff_ne_zero (cur_lc_wf hwf _).2
    · have hv := hwf.2 kv h1
      exact ⟨hv.1, hv.2.1, hne⟩

end AddDeltaLemmas

section InvariantLemmas

variable {I R : Type} [DecidableEq I] [AddCommMonoid R] [DecidableEq R]

theorem addGenerator_eq {s s' : SimpleDAStructure I R} {g : SimpleDAGenerator I}
    (h : s.addGenerator g = some s') :
    s'.id = s.id ∧ s'.algebra1 = s.algebra1 ∧ s'.algebra2 = s.algebra2 ∧
    s'.da_action = s.da_action ∧ g.parent = s.id ∧
    s'.generators = (if g ∈ s.generators then s.generators else s.generators ++ [g]) := by
  rw [SimpleDAStructure.addGenerator] at h
  split_ifs at h with h1 h2
  · rw [Option.some.injEq] at h
    subst h
    exact ⟨rfl, rfl, rfl, rfl, h1, by simp [h2]⟩
  · rw [Option.some.injEq] at h
    subst h
    exact ⟨rfl, rfl, rfl, rfl, h1, by simp [h2]⟩

theorem addDelta_parents {s s' : SimpleDAStructure I R} {gf gt : SimpleDAGenerator I}
    {cd : AlgGen I} {cas : List (AlgGen I)} {c : R}
    (h : s.addDelta gf gt cd cas c = some s') :
    gf.parent = s.id ∧ gt.parent = s.id := by
  have hs : (s.addDelta gf gt cd cas c).isSome := by rw [h]; rfl
  exact ((addDelta_isSome_iff s gf gt cd cas c).mp hs).1

theorem actionParentsOK_addDelta {s s' : SimpleDAStructure I R} {gf gt : SimpleDAGenerator I}
    {cd : AlgGen I} {cas : List (AlgGen I)} {c : R}
    (hp : actionParentsOK s) (h : s.addDelta gf gt cd cas c = some s') :
    actionParentsOK s' := by
  obtain ⟨hid, -, -, -, hact⟩ := addDelta_eq h
  obtain ⟨hgf, hgt⟩ := addDelta_parents h
  intro kv hkv
  rw [hact] at hkv
  have hmem := List.mem_of_mem_filter hkv
  rcases mem_dictInsert hmem with h1 | h1
  · subst h1
    refine ⟨by rw [hid]; exact hgf, ?_⟩
    intro tc htc
    rcases mem_lcAddTerm htc with h2 | h2
    · have : tc.1.2 = gt := by rw [h2]
      rw [hid, this]
      exact hgt
    · cases hfv : dictFind? s.da_action (gf, cas) with
      | none =>
          rw [hfv] at h2
          simp at h2
      | some v =>
          rw [hfv] at h2
          have := hp (( (gf, cas), v)) (dictFind?_mem hfv)
          rw [hid]
          exact this.2 tc h2
  · have := hp kv h1
    rw [hid]
    exact ⟨this.1, this.2⟩

theorem actionParentsOK_addGenerator {s s' : SimpleDAStructure I R} {g : SimpleDAGenerator I}
    (hp : actionParentsOK s) (h : s.addGenerator g = some s') :
    actionParentsOK s' := by
  obtain ⟨hid, -, -, hact, -, -⟩ := addGenerator_eq h
  intro kv hkv
  rw [hact] at hkv
  have := hp kv hkv
  rw [hid]
  exact ⟨this.1, this.2⟩

theorem actionParentsOK_applySteps {s s' : SimpleDAStructure I R} {l : List (DAStep I R)}
    (hp : actionParentsOK s) (h : applySteps s l = some s') :
    s'.id = s.id ∧ actionParentsOK s' := by
  induction l generalizing s with
  | nil =>
      rw [applySteps, Option.some.injEq] at h
      subst h
      exact ⟨rfl, hp⟩
  | cons st rest ih =>
      rw [applySteps] at h
      cases hstep : applyStep s st with
      | none => rw [hstep] at h; simp at h
      | some s1 =>
          rw [hstep, Option.some_bind] at h
          have hstep1 :
              s1.id = s.id ∧ actionParentsOK s1 := by
            cases st with
            | addGen g =>
                exact ⟨(addGenerator_eq hstep).1, actionParentsOK_addGenerator hp hstep⟩
            | addDel gf gt cd cas c =>
                exact ⟨(addDelta_eq hstep).1, actionParentsOK_addDelta hp hstep⟩
          obtain ⟨hid1, hp1⟩ := hstep1
          obtain ⟨hid2, hp2⟩ := ih hp1 h
      
          exact ⟨hid2.trans hid1, hp2⟩

end InvariantLemmas

section MoreDictLemmas

variable {K V : Type} [DecidableEq K]

theorem dictInsert_of_find?_none {d : List (K × V)} {k : K} (v : V)
    (h : dictFind? d k = none) : dictInsert d k v = d ++ [(k, v)] := by
  induction d with
  | nil => simp [dictInsert]
  | cons kv rest ih =>
      obtain ⟨k0, v0⟩ := kv
      by_cases h0 : k0 = k
      · rw [dictFind?, if_pos h0] at h
        simp at h
      · rw [dictFind?, if_neg h0] at h
        simp [dictInsert, h0, ih h]

theorem filter_nonempty_eq_self {A B : Type} {d : List (A × List B)}
    (h : ∀ kv ∈ d, kv.2 ≠ []) :
    d.filter (fun kv => !kv.2.isEmpty) = d :=
  List.filter_eq_self.mpr (fun kv hkv => by simpa using h kv hkv)

end MoreDictLemmas

theorem addDelta_find?_self {I R : Type} [DecidableEq I] [AddCommMonoid R] [DecidableEq R]
    {s s' : SimpleDAStructure I R} {gf gt : SimpleDAGenerator I}
    {cd : AlgGen I} {cas : List (AlgGen I)} {c : R}
    (hwf : tableWF s) (h : s.addDelta gf gt cd cas c = some s') :
    dictFind? s'.da_action (gf, cas) =
      (if (lcAddTerm ((dictFind? s.da_action (gf, cas)).getD []) (cd, gt) c).isEmpty
       then none
       else some (lcAddTerm ((dictFind? s.da_action (gf, cas)).getD []) (cd, gt) c)) := by
  obtain ⟨-, -, -, -, hact⟩ := addDelta_eq h
  rw [hact, dictFind?_filter _ (dictInsert_keys_nodup _ _ hwf.1), dictFind?_insert_self,
    Option.some_bind]
  by_cases hL : (lcAddTerm ((dictFind? s.da_action (gf, cas)).getD []) (cd, gt) c).isEmpty
  · simp [hL]
  · simp [hL]

/-- Claim C10: for any call to `addDelta` that passes the contract checks and
carries ring coefficient zero, the operation table is left exactly unchanged
(on a well-formed table): a freshly created zero entry is immediately swept
away, and an existing combination is unaltered. -/
theorem C10_addDelta_zero {I R : Type} [DecidableEq I] [AddCommMonoid R] [DecidableEq R]
    {s s' : SimpleDAStructure I R} {gf gt : SimpleDAGenerator I}
    {cd : AlgGen I} {cas : List (AlgGen I)}
    (hwf : tableWF s) (h : s.addDelta gf gt cd cas (0 : R) = some s') :
    s'.da_action = s.da_action := by
  obtain ⟨-, -, -, -, hact⟩ := addDelta_eq h
  have hne : ∀ kv ∈ s.da_action, kv.2 ≠ [] := fun kv hkv => (hwf.2 kv hkv).2.2
  rw [hact]
  cases hfv : dictFind? s.da_action (gf, cas) with
  | none =>
      have hz : lcAddTerm ((none : Option (LinComb (DATerm I) R)).getD []) (cd, gt) (0 : R)
          = [] := by
        simp [lcAddTerm]
      rw [hz, dictInsert_of_find?_none _ hfv, List.filter_append]
      simp [filter_nonempty_eq_self hne]
  | some v =>
      have hv0 : ∀ tc ∈ v, tc.2 ≠ (0 : R) := (hwf.2 _ (dictFind?_mem hfv)).2.1
      have hz : lcAddTerm ((some v).getD []) (cd, gt) (0 : R) = v := by
        simpa using lcAddTerm_zero (l := v) (cd, gt) hv0
      rw [hz, dictInsert_find?_self hfv]
      exact filter_nonempty_eq_self hne

def c10G : SimpleDAGenerator Nat := ⟨0, 5, 5, 0⟩

def c10D : AlgGen Nat := ⟨5, 5, [], true, 9⟩

def c10S : SimpleDAStructure Nat (ZMod 2) :=
  ⟨0, ⟨[], false⟩, ⟨[], false⟩, [c10G], [((c10G, []), [((c10D, c10G), 1)])]⟩

theorem C10_witness :
    c10S.addDelta c10G c10G c10D [] (0 : ZMod 2) = some c10S ∧
    c10S.da_action = c10S.da_action :=
  ⟨by decide,
   @C10_addDelta_zero Nat (ZMod 2) _ _ _ c10S c10S c10G c10G c10D []
     ⟨by decide, by decide⟩ (by decide)⟩

/-- Claim C5: two `addDelta` calls with the same source, target and
coefficients and ring coefficients `c1`, `c2`, starting from a well-formed
table in which the key is absent, leave a single entry for the key whose
combination is exactly the coefficient `c1 + c2` on `(coeff_d, gen_to)` —
and no entry at all when `c1 + c2` is zero; the key list stays
duplicate-free, so there are never two separate entries. -/
theorem C5_accumulate {I R : Type} [DecidableEq I] [AddCommMonoid R] [DecidableEq R]
    {s s1 s2 : SimpleDAStructure I R} {gf gt : SimpleDAGenerator I}
    {cd : AlgGen I} {cas : List (AlgGen I)} {c1 c2 : R}
    (hwf : tableWF s) (habs : dictFind? s.da_action (gf, cas) = none)
    (h1 : s.addDelta gf gt cd cas c1 = some s1)
    (h2 : s1.addDelta gf gt cd cas c2 = some s2) :
    dictFind? s2.da_action (gf, cas) =
      (if c1 + c2 = 0 then none else some [((cd, gt), c1 + c2)]) ∧
    (s2.da_action.map Prod.fst).Nodup := by
  have hwf1 := tableWF_addDelta hwf h1
  have hwf2 := tableWF_addDelta hwf1 h2
  refine ⟨?_, hwf2.1⟩
  have hf1 := addDelta_find?_self hwf h1
  have hf2 := addDelta_find?_self hwf1 h2
  rw [habs] at hf1
  by_cases hc1 : c1 = 0
  · subst hc1
    have hz1 : lcAddTerm ((none : Option (LinComb (DATerm I) R)).getD []) (cd, gt) (0 : R)
        = [] := by
      simp [lcAddTerm]
    rw [hz1] at hf1
    simp only [List.isEmpty_nil, if_true] at hf1
    rw [hf1] at hf2
    by_cases hc2 : c2 = 0
    · subst hc2
      rw [hz1] at hf2
      simp only [List.isEmpty_nil, if_true] at hf2
      rw [hf2]
      simp
    · have hz2 : lcAddTerm ((none : Option (LinComb (DATerm I) R)).getD []) (cd, gt) c2
          = [((cd, gt), c2)] := by
        simp [lcAddTerm, hc2]
      rw [hz2] at hf2
      simp only [List.isEmpty_cons] at hf2
      rw [zero_add]
      simpa [hc2] using hf2
  · have hz1 : lcAddTerm ((none : Option (LinComb (DATerm I) R)).getD []) (cd, gt) c1
        = [((cd, gt), c1)] := by
      simp [lcAddTerm, hc1]
    rw [hz1] at hf1
    simp only [List.isEmpty_cons] at hf1
    simp only [Bool.false_eq_true, if_false] at hf1
    rw [hf1] at hf2
    have hstep : lcAddTerm ((some [((cd, gt), c1)]).getD []) (cd, gt) c2
        = (if c1 + c2 = 0 then [] else [((cd, gt), c1 + c2)]) := by
      simp [lcAddTerm]
    rw [hstep] at hf2
    by_cases hz : c1 + c2 = 0
    · rw [if_pos hz] at hf2
      simp only [List.isEmpty_nil, if_true] at hf2
      rw [hf2, if_pos hz]
    · rw [if_neg hz] at hf2
      simp only [List.isEmpty_cons, Bool.false_eq_true, if_false] at hf2
      rw [hf2, if_neg hz]

def c5S0 : SimpleDAStructure Nat (ZMod 2) :=
  ⟨0, ⟨[], false⟩, ⟨[], false⟩, [c10G], []⟩

def c5S1 : SimpleDAStructure Nat (ZMod 2) :=
  ⟨0, ⟨[], false⟩, ⟨[], false⟩, [c10G], [((c10G, []), [((c10D, c10G), 1)])]⟩

def c5S2 : SimpleDAStructure Nat (ZMod 2) :=
  ⟨0, ⟨[], false⟩, ⟨[], false⟩, [c10G], []⟩

theorem C5_witness :
    (dictFind? c5S2.da_action (c10G, ([] : List (AlgGen Nat))) =
      (if (1 + 1 : ZMod 2) = 0 then none
       else some [((c10D, c10G), (1 + 1 : ZMod 2))])) ∧
    (c5S2.da_action.map Prod.fst).Nodup :=
  @C5_accumulate Nat (ZMod 2) _ _ _ c5S0 c5S1 c5S2 c10G c10G c10D [] 1 1
    ⟨by decide, by decide⟩ (by decide) (by decide) (by decide)

/-- One `addDelta` call, as data: source, target, D-side coefficient, A-side
coefficients, ring coefficient. -/
abbrev DeltaCall (I R : Type) :=
  SimpleDAGenerator I × SimpleDAGenerator I × AlgGen I × List (AlgGen I) × R

/-- Apply a sequence of `addDelta` calls, aborting at the first assertion
failure. -/
def addDeltaSeq {I R : Type} [DecidableEq I] [AddCommMonoid R] [DecidableEq R]
    (s : SimpleDAStructure I R) : List (DeltaCall I R) → Option (SimpleDAStructure I R)
  | [] => some s
  | dc :: rest =>
      (s.addDelta dc.1 dc.2.1 dc.2.2.1 dc.2.2.2.1 dc.2.2.2.2).bind
        (fun s' => addDeltaSeq s' rest)

/-- The net ring-coefficient contribution of a sequence of calls to the term
`t` under the key `k`. -/
def netCoeff {I R : Type} [DecidableEq I] [AddCommMonoid R]
    (calls : List (DeltaCall I R)) (k : DAKey I) (t : DATerm I) : R :=
  (calls.map (fun dc =>
    if k = (dc.1, dc.2.2.2.1) ∧ t = (dc.2.2.1, dc.2.1) then dc.2.2.2.2 else 0)).sum

/-- Claim C6: after any sequence of `addDelta` calls from a well-formed table,
no key maps to a zero linear combination (every stored combination is nonempty
with all coefficients nonzero), and the coefficient of any term under any key
equals its initial value plus the net ring-coefficient sum of the calls for
that key and term — so a contribution whose net sum is zero is absent. -/
theorem C6_zero_pruning {I R : Type} [DecidableEq I] [AddCommMonoid R] [DecidableEq R]
    {s s' : SimpleDAStructure I R} {calls : List (DeltaCall I R)}
    (hwf : tableWF s) (h : addDeltaSeq s calls = some s') (k : DAKey I) (t : DATerm I) :
    (∀ kv ∈ s'.da_action, kv.2 ≠ [] ∧ ∀ tc ∈ kv.2, tc.2 ≠ (0 : R)) ∧
    actionCoeff s' k t = actionCoeff s k t + netCoeff calls k t := by
  induction calls generalizing s with
  | nil =>
      rw [addDeltaSeq, Option.some.injEq] at h
      subst h
      refine ⟨fun kv hkv => ⟨(hwf.2 kv hkv).2.2, (hwf.2 kv hkv).2.1⟩, ?_⟩
      simp [netCoeff]
  | cons dc rest ih =>
      rw [addDeltaSeq] at h
      cases hstep : s.addDelta dc.1 dc.2.1 dc.2.2.1 dc.2.2.2.1 dc.2.2.2.2 with
      | none => rw [hstep] at h; simp at h
      | some s1 =>
          rw [hstep, Option.some_bind] at h
          have hwf1 := tableWF_addDelta hwf hstep
          obtain ⟨hinv, hco⟩ := ih hwf1 h
          refine ⟨hinv, ?_⟩
          rw [hco, actionCoeff_addDelta hwf hstep k t]
          have hnet : netCoeff (dc :: rest) k t =
              (if k = (dc.1, dc.2.2.2.1) ∧ t = (dc.2.2.1, dc.2.1) then dc.2.2.2.2 else 0) +
              netCoeff rest k t := by
            rw [netCoeff, List.map_cons, List.sum_cons, ← netCoeff]
          rw [hnet, add_assoc]

def c6Calls : List (DeltaCall Nat (ZMod 2)) :=
  [(c10G, c10G, c10D, [], 1), (c10G, c10G, c10D, [], 1)]

theorem C6_witness :
    ((∀ kv ∈ c5S2.da_action, kv.2 ≠ [] ∧ ∀ tc ∈ kv.2, tc.2 ≠ (0 : ZMod 2)) ∧
      actionCoeff c5S2 (c10G, []) (c10D, c10G) =
        actionCoeff c5S0 (c10G, []) (c10D, c10G) + netCoeff c6Calls (c10G, []) (c10D, c10G)) ∧
    netCoeff c6Calls (c10G, []) (c10D, c10G) = 0 ∧
    actionCoeff c5S2 (c10G, []) (c10D, c10G) = 0 :=
  ⟨@C6_zero_pruning Nat (ZMod 2) _ _ _ c5S0 c5S2 c6Calls
      ⟨by decide, by decide⟩ (by decide) (c10G, []) (c10D, c10G),
   by decide, by decide⟩

theorem addDeltaChainOK_iff {I : Type} [DecidableEq I]
    (gf gt : SimpleDAGenerator I) (cas : List (AlgGen I)) :
    addDeltaChainOK gf gt cas = true ↔
      ((cas = [] → gf.idem2 = gt.idem2) ∧
       ∀ h : cas ≠ [],
         gf.idem2 = (cas.head h).leftIdem ∧
         (∀ i, ∀ hi : i + 1 < cas.length,
           (cas.get ⟨i, Nat.lt_of_succ_lt hi⟩).rightIdem =
             (cas.get ⟨i + 1, hi⟩).leftIdem) ∧
         (cas.getLast h).rightIdem = gt.idem2) := by
  cases cas with
  | nil => simp [addDeltaChainOK]
  | cons a0 rest =>
      rw [addDeltaChainOK]
      simp only [Bool.and_eq_true, decide_eq_true_eq]
      constructor
      · rintro ⟨⟨h1, h2⟩, h3⟩
        refine ⟨by simp, fun _ => ⟨h1, ?_, h3⟩⟩
        intro i hi
        exact List.chain'_iff_get.mp h2 i (by simpa using Nat.lt_of_succ_lt_succ hi)
      · rintro ⟨-, h⟩
        obtain ⟨h1, h2, h3⟩ := h (List.cons_ne_nil a0 rest)
        refine ⟨⟨h1, ?_⟩, h3⟩
        rw [List.chain'_iff_get]
        intro i hi
        exact h2 i (by simpa using Nat.succ_lt_succ hi)

def c4G : SimpleDAGenerator Nat := ⟨1, 0, 0, 0⟩

def c4D : AlgGen Nat := ⟨0, 0, [], true, 0⟩

def c4S : SimpleDAStructure Nat (ZMod 2) :=
  ⟨0, ⟨[], false⟩, ⟨[], false⟩, [c4G], []⟩

/-- Counterexample to claim C4 as stated: a call whose idempotent-chain
preconditions all hold (both D-side equations on `coeff_d` and, the A-side
tuple being empty, the equality of the two type A idempotents) still fails the
contract check, because the generators' parent is not the structure. -/
theorem C4_counterexample :
    c4D.getLeftIdem = c4G.idem1 ∧ c4D.getRightIdem = c4G.idem1 ∧
    c4G.idem2 = c4G.idem2 ∧
    c4S.addDelta c4G c4G c4D [] (1 : ZMod 2) = none := by decide

/-- Claim C4 (amended): `addDelta` fails with an assertion exactly when the
generator-parent or idempotent-chain preconditions are violated: in addition
to the idempotent conditions listed by the claim, both generators' parent must
be the structure; when all of these hold the call does not raise. -/
theorem C4_precondition_iff {I R : Type} [DecidableEq I] [AddCommMonoid R] [DecidableEq R]
    (s : SimpleDAStructure I R) (gf gt : SimpleDAGenerator I)
    (cd : AlgGen I) (cas : List (AlgGen I)) (c : R) :
    (s.addDelta gf gt cd cas c).isSome ↔
      (gf.parent = s.id ∧ gt.parent = s.id) ∧
      cd.getLeftIdem = gf.idem1 ∧ cd.getRightIdem = gt.idem1 ∧
      ((cas = [] → gf.idem2 = gt.idem2) ∧
       ∀ h : cas ≠ [],
         gf.idem2 = (cas.head h).leftIdem ∧
         (∀ i, ∀ hi : i + 1 < cas.length,
           (cas.get ⟨i, Nat.lt_of_succ_lt hi⟩).rightIdem =
             (cas.get ⟨i + 1, hi⟩).leftIdem) ∧
         (cas.getLast h).rightIdem = gt.idem2) := by
  rw [addDelta_isSome_iff, addDeltaChainOK_iff]
  tauto

theorem C4_witness :
    (c5S0.addDelta c10G c10G c10D [] (1 : ZMod 2)).isSome :=
  (C4_precondition_iff c5S0 c10G c10G c10D [] 1).mpr
    ⟨⟨rfl, rfl⟩, rfl, rfl, fun _ => rfl, fun h => absurd rfl h⟩

def c1G : SimpleDAGenerator Nat := ⟨0, 0, 0, 0⟩

def c1D : AlgGen Nat := ⟨0, 0, [], true, 0⟩

def c1S : SimpleDAStructure Nat (ZMod 2) :=
  ⟨0, ⟨[], false⟩, ⟨[], false⟩, [], []⟩

def c1S' : SimpleDAStructure Nat (ZMod 2) :=
  ⟨0, ⟨[], false⟩, ⟨[], false⟩, [], [((c1G, []), [((c1D, c1G), 1)])]⟩

/-- Counterexample to claim C1 as stated: a call to `addDelta` whose
`gen_from` and `gen_to` are not members of the structure's generators set
(here the set is empty) passes the contract check, which validates only the
parent; the resulting table holds a key whose generator is not registered. -/
theorem C1_counterexample :
    c1G ∉ c1S.generators ∧
    c1S.addDelta c1G c1G c1D [] (1 : ZMod 2) = some c1S' ∧
    c1G ∉ c1S'.generators ∧
    (c1G, ([] : List (AlgGen Nat))) ∈ c1S'.da_action.map Prod.fst := by decide

/-- Claim C1 (amended): `addDelta`'s contract check on the generators
validates only their parent — it fails whenever either parent differs from
the structure, and membership in the generators set is not checked;
consequently, after any sequence of `addGenerator`/`addDelta` calls from a
state whose table already satisfies it, every generator appearing in a key or
value of `da_action` has parent equal to the structure (though it need not
belong to the generators set). -/
theorem C1_parent_contract {I R : Type} [DecidableEq I] [AddCommMonoid R] [DecidableEq R]
    {s s' : SimpleDAStructure I R} {l : List (DAStep I R)}
    (hp : actionParentsOK s) (h : applySteps s l = some s') :
    (∀ gf gt : SimpleDAGenerator I, ∀ cd : AlgGen I, ∀ cas : List (AlgGen I), ∀ c : R,
      (gf.parent ≠ s.id ∨ gt.parent ≠ s.id) → s.addDelta gf gt cd cas c = none) ∧
    s'.id = s.id ∧ actionParentsOK s' := by
  refine ⟨?_, actionParentsOK_applySteps hp h⟩
  intro gf gt cd cas c hne
  have hno : ¬ (gf.parent = s.id ∧ gt.parent = s.id) := by
    intro hcon
    rcases hne with hne | hne
    · exact hne hcon.1
    · exact hne hcon.2
  rw [SimpleDAStructure.addDelta, if_neg hno]

def c1Steps : List (DAStep Nat (ZMod 2)) :=
  [DAStep.addGen c10G, DAStep.addDel c10G c10G c10D [] 1]

theorem C1_witness :
    applySteps c1S c1Steps = some c5S1 ∧ c5S1.id = c1S.id ∧ actionParentsOK c5S1 :=
  ⟨by decide,
   (@C1_parent_contract Nat (ZMod 2) _ _ _ c1S c5S1 c1Steps
     (fun kv hkv => absurd hkv (List.not_mem_nil kv)) (by decide)).2⟩

theorem strFoldlAppend (a b : String) (l : List String) :
    List.foldl (fun r s => r ++ s) (a ++ b) l =
      a ++ List.foldl (fun r s => r ++ s) b l := by
  induction l generalizing b with
  | nil => rfl
  | cons x xs ih =>
      simp only [List.foldl]
      rw [String.append_assoc]
      exact ih (b ++ x)

theorem strJoinCons (x : String) (l : List String) :
    String.join (x :: l) = x ++ String.join l := by
  show List.foldl (fun r s => r ++ s) ("" ++ x) l = x ++ String.join l
  rw [String.empty_append]
  calc List.foldl (fun r s => r ++ s) x l
      = List.foldl (fun r s => r ++ s) (x ++ "") l := by rw [String.append_empty]
    _ = x ++ List.foldl (fun r s => r ++ s) "" l := strFoldlAppend x "" l
    _ = x ++ String.join l := rfl

theorem foldl_render_filter {A : Type} (step : String → A → String)
    (p : A → Bool) (render : A → String)
    (hstep : ∀ acc kv, step acc kv = if p kv then acc ++ render kv else acc) :
    ∀ (d : List A) (acc : String),
      List.foldl step acc d = acc ++ String.join ((d.filter p).map render) := by
  intro d
  induction d with
  | nil =>
      intro acc
      rw [List.foldl_nil]
      show acc = acc ++ ""
      rw [String.append_empty]
  | cons kv rest ih =>
      intro acc
      rw [List.foldl_cons, hstep, List.filter_cons]
      by_cases hp : p kv
      · rw [if_pos hp, if_pos hp, ih, List.map_cons, strJoinCons, String.append_assoc]
      · rw [if_neg hp, if_neg hp, ih]

/-- Claim C9: `toStrWithMultA` renders the header followed by exactly those
`da_action` entries whose total A-side multiplicity profile — the
componentwise sum over `mult_a.length` columns of the multiplicities of all
coefficients in the key's tuple — is exactly equal to `mult_a`, in table
order, and omits all other entries. -/
theorem C9_toStrWithMultA {I R : Type}
    (render : DAKey I × LinComb (DATerm I) R → String)
    (s : SimpleDAStructure I R) (mult_a : List Nat) :
    s.toStrWithMultA render mult_a =
      "Type DA Structure.\n" ++ String.join
        ((s.da_action.filter (fun kv =>
            decide (sumColumns (kv.1.2.map (fun co => co.multiplicity)) mult_a.length
              = mult_a))).map render) := by
  rw [SimpleDAStructure.toStrWithMultA]
  refine foldl_render_filter _ _ render (fun acc kv => ?_) s.da_action "Type DA Structure.\n"
  show (if mult_a = sumColumns (kv.1.2.map (fun co => co.multiplicity)) mult_a.length
        then acc ++ render kv else acc) =
       (if decide (sumColumns (kv.1.2.map (fun co => co.multiplicity)) mult_a.length = mult_a)
        then acc ++ render kv else acc)
  by_cases hc : sumColumns (kv.1.2.map (fun co => co.multiplicity)) mult_a.length = mult_a
  · rw [if_pos hc.symm, if_pos (by simpa using hc)]
  · rw [if_neg (fun h => hc h.symm), if_neg (by simpa using hc)]

def c9S : SimpleDAStructure Nat (ZMod 2) :=
  ⟨0, ⟨[], false⟩, ⟨[], false⟩, [c10G],
   [((c10G, [⟨5, 5, [1, 0], true, 0⟩]), [((c10D, c10G), 1)]),
    ((c10G, [⟨5, 5, [0, 1], true, 1⟩]), [((c10D, c10G), 1)])]⟩

example :
    c9S.toStrWithMultA (fun kv => toString kv.1.1.name ++ ";") [1, 0] =
      "Type DA Structure.\n0;" := by
  rfl

/-- Claim C8: `testDelta` leaves the DA structure's own state unchanged — the
generators and the operation table after a call are exactly what they were
before — and a second call with no intervening mutation returns the same
verdict (the verdict itself is delegated to the DD structure's own check,
abstracted as the function argument). -/
theorem C8_testDelta_frame {I R : Type} [DecidableEq I]
    (ddVerdict : SimpleDDStructure I R → Bool) {s s1 : SimpleDAStructure I R} {b : Bool}
    (h : SimpleDAStructure.testDelta ddVerdict s = some (b, s1)) :
    s1 = s ∧ s1.generators = s.generators ∧ s1.da_action = s.da_action ∧
    SimpleDAStructure.testDelta ddVerdict s1 = some (b, s1) := by
  rw [SimpleDAStructure.testDelta] at h
  cases hb : s.testDeltaBuild with
  | none =>
      rw [hb] at h
      simp at h
  | some dd =>
      rw [hb] at h
      simp only [Option.map_some'] at h
      rw [Option.some.injEq, Prod.mk.injEq] at h
      obtain ⟨hb', hs⟩ := h
      subst hs
      refine ⟨rfl, rfl, rfl, ?_⟩
      rw [SimpleDAStructure.testDelta, hb]
      simp [hb']

theorem C8_witness :
    c5S1 = c5S1 ∧ c5S1.generators = c5S1.generators ∧
    c5S1.da_action = c5S1.da_action ∧
    SimpleDAStructure.testDelta (fun _ => true) c5S1 = some (true, c5S1) :=
  C8_testDelta_frame (fun _ => true) (by decide)

theorem mapM_id_map {A B : Type} (fo : A → Option B) (fp : A → B) (xs : List A)
    (h : ∀ x ∈ xs, fo x = some (fp x)) :
    (xs.map fo).mapM (fun o => o) = some (xs.map fp) := by
  induction xs with
  | nil => rfl
  | cons x rest ih =>
      rw [List.map_cons, List.mapM_cons, h x (List.mem_cons_self _ _),
        ih (fun y hy => h y (List.mem_cons_of_mem _ hy))]
      rfl

theorem foldl_ddmap_find? {I : Type} [DecidableEq I] :
    ∀ (gs : List (SimpleDAGenerator I))
      (m : List (SimpleDAGenerator I × SimpleDDGenerator I)) (g : SimpleDAGenerator I),
      dictFind? (gs.foldl (fun m gen => dictInsert m gen (ddGenOf gen)) m) g =
        (if g ∈ gs then some (ddGenOf g) else dictFind? m g) := by
  intro gs
  induction gs with
  | nil => intro m g; simp
  | cons g0 rest ih =>
      intro m g
      rw [List.foldl_cons, ih]
      by_cases hg : g ∈ rest
      · rw [if_pos hg, if_pos (List.mem_cons_of_mem g0 hg)]
      · rw [if_neg hg]
        by_cases he : g = g0
        · subst he
          rw [dictFind?_insert_self, if_pos (List.mem_cons_self _ _)]
        · rw [dictFind?_insert_ne _ _ _ _ he]
          have hnc : g ∉ g0 :: rest := by
            intro hc
            rcases List.mem_cons.mp hc with hc | hc
            exacts [he hc, hg hc]
          rw [if_neg hnc]

theorem dagen_to_ddgen_map_find? {I R : Type} [DecidableEq I]
    (s : SimpleDAStructure I R) (g : SimpleDAGenerator I) :
    dictFind? s.dagen_to_ddgen_map g =
      (if g ∈ s.generators then some (ddGenOf g) else none) := by
  rw [SimpleDAStructure.dagen_to_ddgen_map, foldl_ddmap_find?]
  rfl

/-- Claim C7: on a structure whose generators are parent-correct, whose
`da_action` generators are all registered in the generator set (so that the
`dagen_to_ddgen_map` lookups succeed), and whose empty-tuple terms satisfy
the type A idempotent equality asserted by the source, `testDelta`
successfully builds the DD structure; the DA-to-DD generator map sends each
generator to the DD generator with the same idempotent pair and name, is
injective on the generator set and onto the DD generator list; and the DD
operations are exactly one per `da_action` term, between the corresponding
DD generators, with D-side coefficient `coeffs_d`, dual coefficient the
wrapped tuple `coeffs_a` whose idempotent marker is `gen_from.idem2` when
the tuple is empty and unset otherwise, and the same ring coefficient. -/
theorem C7_testDelta_translation {I R : Type} [DecidableEq I]
    {s : SimpleDAStructure I R}
    (hpar : ∀ g ∈ s.generators, g.parent = s.id)
    (hmemb : ∀ kv ∈ s.da_action,
      kv.1.1 ∈ s.generators ∧ ∀ tc ∈ kv.2, tc.1.2 ∈ s.generators)
    (hemp : ∀ kv ∈ s.da_action, kv.1.2 = [] →
      ∀ tc ∈ kv.2, kv.1.1.idem2 = tc.1.2.idem2) :
    ∃ dd : SimpleDDStructure I R, s.testDeltaBuild = some dd ∧
      dd.generators = s.generators.map ddGenOf ∧
      (∀ g ∈ s.generators, (ddGenOf g).idem1 = g.idem1 ∧ (ddGenOf g).idem2 = g.idem2 ∧
        (ddGenOf g).name = g.name) ∧
      Set.InjOn ddGenOf {g | g ∈ s.generators} ∧
      dd.deltas = s.da_action.flatMap (fun kv => kv.2.map (fun tc =>
        (ddGenOf kv.1.1, ddGenOf tc.1.2, tc.1.1,
         (⟨kv.1.2, if kv.1.2.isEmpty then some kv.1.1.idem2 else none⟩ :
            TensorStarGenerator I),
         tc.2))) := by
  have h1 : s.da_action.flatMap (fun kv => kv.2.map
        (fun t => ddDeltaOfTerm s.dagen_to_ddgen_map kv.1.1 kv.1.2 t))
      = (s.da_action.flatMap (fun kv => kv.2.map (fun t => (kv, t)))).map
          (fun p => ddDeltaOfTerm s.dagen_to_ddgen_map p.1.1.1 p.1.1.2 p.2) := by
    rw [List.map_flatMap]
    congr 1
    funext kv
    rw [List.map_map]
    rfl
  have h2 : s.da_action.flatMap (fun kv => kv.2.map (fun tc =>
        (ddGenOf kv.1.1, ddGenOf tc.1.2, tc.1.1,
         (⟨kv.1.2, if kv.1.2.isEmpty then some kv.1.1.idem2 else none⟩ :
            TensorStarGenerator I),
         tc.2)))
      = (s.da_action.flatMap (fun kv => kv.2.map (fun t => (kv, t)))).map
          (fun p =>
            (ddGenOf p.1.1.1, ddGenOf p.2.1.2, p.2.1.1,
             (⟨p.1.1.2, if p.1.1.2.isEmpty then some p.1.1.1.idem2 else none⟩ :
                TensorStarGenerator I),
             p.2.2)) := by
    rw [List.map_flatMap]
    congr 1
    funext kv
    rw [List.map_map]
    rfl
  have hops : (s.da_action.flatMap
      (fun kv => kv.2.map
        (fun t => ddDeltaOfTerm s.dagen_to_ddgen_map kv.1.1 kv.1.2 t))).mapM (fun o => o) =
      some (s.da_action.flatMap (fun kv => kv.2.map (fun tc =>
        (ddGenOf kv.1.1, ddGenOf tc.1.2, tc.1.1,
         (⟨kv.1.2, if kv.1.2.isEmpty then some kv.1.1.idem2 else none⟩ :
            TensorStarGenerator I),
         tc.2)))) := by
    rw [h1, h2]
    refine mapM_id_map _ _ _ ?_
    intro p hp
    rcases List.mem_flatMap.mp hp with ⟨kv, hkv, hpmem⟩
    rcases List.mem_map.mp hpmem with ⟨t, ht, hpe⟩
    subst hpe
    have hfrom : dictFind? s.dagen_to_ddgen_map kv.1.1 = some (ddGenOf kv.1.1) := by
      rw [dagen_to_ddgen_map_find?, if_pos (hmemb kv hkv).1]
    have hto : dictFind? s.dagen_to_ddgen_map t.1.2 = some (ddGenOf t.1.2) := by
      rw [dagen_to_ddgen_map_find?, if_pos ((hmemb kv hkv).2 t ht)]
    cases hcc : kv.1.2 with
    | nil =>
        have hid := hemp kv hkv hcc t ht
        simp [ddDeltaOfTerm, hid, hfrom, hto]
    | cons a0 rest =>
        simp [ddDeltaOfTerm, hfrom, hto]
  refine ⟨⟨s.generators.map ddGenOf,
    s.da_action.flatMap (fun kv => kv.2.map (fun tc =>
      (ddGenOf kv.1.1, ddGenOf tc.1.2, tc.1.1,
       (⟨kv.1.2, if kv.1.2.isEmpty then some kv.1.1.idem2 else none⟩ :
          TensorStarGenerator I),
       tc.2)))⟩, ?_, rfl, ?_, ?_, rfl⟩
  · rw [SimpleDAStructure.testDeltaBuild, hops]
    rfl
  · intro g _
    exact ⟨rfl, rfl, rfl⟩
  · intro g1 hg1 g2 hg2 he
    have hp1 := hpar g1 hg1
    have hp2 := hpar g2 hg2
    cases g1
    cases g2
    simp only [ddGenOf, SimpleDDGenerator.mk.injEq] at he
    simp only [SimpleDAGenerator.mk.injEq]
    simp only at hp1 hp2
    exact ⟨hp1.trans hp2.symm, he.1, he.2.1, he.2.2⟩

theorem C7_witness :
    ∃ dd : SimpleDDStructure Nat (ZMod 2), c5S1.testDeltaBuild = some dd ∧
      dd.generators = c5S1.generators.map ddGenOf ∧
      (∀ g ∈ c5S1.generators, (ddGenOf g).idem1 = g.idem1 ∧
        (ddGenOf g).idem2 = g.idem2 ∧ (ddGenOf g).name = g.name) ∧
      Set.InjOn ddGenOf {g | g ∈ c5S1.generators} ∧
      dd.deltas = c5S1.da_action.flatMap (fun kv => kv.2.map (fun tc =>
        (ddGenOf kv.1.1, ddGenOf tc.1.2, tc.1.1,
         (⟨kv.1.2, if kv.1.2.isEmpty then some kv.1.1.idem2 else none⟩ :
            TensorStarGenerator Nat),
         tc.2))) :=
  C7_testDelta_translation (by decide) (by decide) (by decide)

/-- The generator `identityDA` associates with an idempotent: both idempotents
equal to it, named by its index in the idempotent list. -/
def identityDAGenOf {I : Type} [DecidableEq I] (pmc : PMC I) (idem : I) :
    SimpleDAGenerator I :=
  ⟨0, idem, idem, pmc.idempotents.indexOf idem⟩

/-- The generator created for one entry of the enumerated idempotent list. -/
def enumGen {I : Type} (p : Nat × I) : SimpleDAGenerator I :=
  ⟨0, p.2, p.2, p.1⟩

theorem identityDA_genFold {I : Type} [DecidableEq I] :
    ∀ (rest : List I) (n : Nat) (m : List (I × SimpleDAGenerator I))
      (d : SimpleDAStructure I (ZMod 2)) (pa : Nat),
      d.id = pa →
      (∀ g ∈ d.generators, g.name < n) →
      ∃ m', (List.enumFrom n rest).foldlM identityDAGenStep (m, d) =
          some (m', SimpleDAStructure.mk pa d.algebra1 d.algebra2
            (d.generators ++ (List.enumFrom n rest).map
              (fun p => ⟨pa, p.2, p.2, p.1⟩))
            d.da_action) ∧
        (∀ idem, idem ∉ rest → dictFind? m' idem = dictFind? m idem) ∧
        (rest.Nodup → ∀ idem ∈ rest,
          dictFind? m' idem = some ⟨pa, idem, idem, n + rest.indexOf idem⟩) := by
  intro rest
  induction rest with
  | nil =>
      intro n m d pa hid hnames
      refine ⟨m, ?_, fun idem _ => rfl,
        fun _ idem hmem => absurd hmem (List.not_mem_nil idem)⟩
      obtain ⟨di, da1, da2, dg, dact⟩ := d
      simp only at hid
      subst hid
      simp [List.enumFrom]
  | cons idem0 rest' ih =>
      intro n m d pa hid hnames
      rw [List.enumFrom_cons, List.foldlM_cons]
      have hnm : (⟨pa, idem0, idem0, n⟩ : SimpleDAGenerator I) ∉ d.generators := by
        intro hmem
        exact absurd (hnames _ hmem) (by simp)
      have hstep : identityDAGenStep (m, d) (n, idem0) =
          some (dictInsert m idem0 ⟨pa, idem0, idem0, n⟩,
            SimpleDAStructure.mk pa d.algebra1 d.algebra2
              (d.generators ++ [⟨pa, idem0, idem0, n⟩]) d.da_action) := by
        simp only [identityDAGenStep, SimpleDAStructure.addGenerator, hid]
        simp [hnm]
      rw [hstep]
      set d1 : SimpleDAStructure I (ZMod 2) :=
        SimpleDAStructure.mk pa d.algebra1 d.algebra2
          (d.generators ++ [⟨pa, idem0, idem0, n⟩]) d.da_action with hd1
      have hnames1 : ∀ g ∈ d1.generators, g.name < n + 1 := by
        intro g hg
        rcases List.mem_append.mp hg with hg | hg
        · exact Nat.lt_succ_of_lt (hnames g hg)
        · rw [List.mem_singleton] at hg
          subst hg
          exact Nat.lt_succ_self n
      obtain ⟨m', hfold, hout, hin⟩ :=
        ih (n + 1) (dictInsert m idem0 ⟨pa, idem0, idem0, n⟩) d1 pa rfl hnames1
      refine ⟨m', ?_, ?_, ?_⟩
      · show List.foldlM identityDAGenStep
          (dictInsert m idem0 ⟨pa, idem0, idem0, n⟩, d1)
          (List.enumFrom (n + 1) rest') = _
        rw [hfold]
        have hgen : d1.generators ++
            (List.enumFrom (n + 1) rest').map
              (fun p => (⟨pa, p.2, p.2, p.1⟩ : SimpleDAGenerator I)) =
            d.generators ++ ((n, idem0) :: List.enumFrom (n + 1) rest').map
              (fun p => (⟨pa, p.2, p.2, p.1⟩ : SimpleDAGenerator I)) := by
          show (d.generators ++ [⟨pa, idem0, idem0, n⟩]) ++ _ = _
          rw [List.map_cons, List.append_assoc, List.singleton_append]
        rw [hgen]
      · intro idem hnmem
        have hne0 : idem ≠ idem0 := fun h => hnmem (h ▸ List.mem_cons_self _ _)
        have hnr : idem ∉ rest' := fun h => hnmem (List.mem_cons_of_mem _ h)
        rw [hout idem hnr, dictFind?_insert_ne _ _ _ _ hne0]
      · intro hnd idem'' hmem
        have hnd' := List.nodup_cons.mp hnd
        rcases List.mem_cons.mp hmem with hcase | hcase
        · subst hcase
          rw [hout idem'' hnd'.1, dictFind?_insert_self, List.indexOf_cons_self,
            Nat.add_zero]
        · have hne : idem0 ≠ idem'' := fun h => hnd'.1 (h ▸ hcase)
          rw [List.indexOf_cons_ne _ hne,
            show n + (List.indexOf idem'' rest').succ
              = (n + 1) + List.indexOf idem'' rest' by omega]
          exact hin hnd'.2 idem'' hcase

theorem identityDA_deltaFold {I : Type} [DecidableEq I]
    (m : List (I × SimpleDAGenerator I)) (genOf : I → SimpleDAGenerator I)
    (hgen : ∀ idem, (genOf idem).idem1 = idem ∧ (genOf idem).idem2 = idem) :
    ∀ (gens : List (AlgGen I)) (d : SimpleDAStructure I (ZMod 2)),
      (∀ idem, (genOf idem).parent = d.id) →
      gens.Nodup →
      (∀ kv ∈ d.da_action, kv.2 ≠ []) →
      (∀ kv ∈ d.da_action, ∀ g ∈ gens, kv.1.2 ≠ [g]) →
      (∀ g ∈ gens, g.isIdempotent = false →
        dictFind? m g.getLeftIdem = some (genOf g.getLeftIdem) ∧
        dictFind? m g.getRightIdem = some (genOf g.getRightIdem)) →
      gens.foldlM (identityDADeltaStep m) d =
        some (SimpleDAStructure.mk d.id d.algebra1 d.algebra2 d.generators
          (d.da_action ++ (gens.filter (fun g => !g.isIdempotent)).map (fun g =>
            ((genOf g.getLeftIdem, [g]),
             [((g, genOf g.getRightIdem), (1 : ZMod 2))])))) := by
  intro gens
  induction gens with
  | nil =>
      intro d hpar hnd hne hkeys hfind
      obtain ⟨di, da1, da2, dg, dact⟩ := d
      simp
  | cons g rest ih =>
      intro d hpar hnd hne hkeys hfind
      rw [List.foldlM_cons]
      by_cases hidem : g.isIdempotent
      · have hstep : identityDADeltaStep m d g = some d := by
          simp [identityDADeltaStep, hidem]
        rw [hstep]
        show List.foldlM (identityDADeltaStep m) d rest = _
        have := ih d hpar (List.nodup_cons.mp hnd).2 hne
          (fun kv hkv g' hg' => hkeys kv hkv g' (List.mem_cons_of_mem _ hg'))
          (fun g' hg' => hfind g' (List.mem_cons_of_mem _ hg'))
        rw [this, List.filter_cons, if_neg (by simp [hidem])]
      · have hidem' : g.isIdempotent = false := by
          simpa using hidem
        obtain ⟨hfl, hfr⟩ := hfind g (List.mem_cons_self _ _) hidem'
        set gl := genOf g.getLeftIdem with hgl
        set gr := genOf g.getRightIdem with hgr
        have hchain : addDeltaChainOK gl gr [g] = true := by
          rw [addDeltaChainOK]
          simp only [Bool.and_eq_true, decide_eq_true_eq]
          refine ⟨⟨(hgen _).2, List.chain'_singleton _⟩, ?_⟩
          rw [List.getLast_singleton]
          exact ((hgen _).2).symm
        have hfnone : dictFind? d.da_action (gl, [g]) = none := by
          rw [dictFind?_eq_none_iff]
          intro hmem
          rcases List.mem_map.mp hmem with ⟨kv, hkv, heq⟩
          have : kv.1.2 = [g] := by rw [heq]
          exact hkeys kv hkv g (List.mem_cons_self _ _) this
        have hsome : (d.addDelta gl gr g [g] (1 : ZMod 2)).isSome := by
          rw [addDelta_isSome_iff]
          exact ⟨⟨hpar _, hpar _⟩, ((hgen _).1).symm, ((hgen _).1).symm, hchain⟩
        obtain ⟨s1, haddelta⟩ := Option.isSome_iff_exists.mp hsome
        obtain ⟨hid1, halg1, halg2, hgens1, hact1⟩ := addDelta_eq haddelta
        have hact2 : s1.da_action = d.da_action ++
            [((gl, [g]), [((g, gr), (1 : ZMod 2))])] := by
          rw [hact1, hfnone]
          have hlc : lcAddTerm ((none : Option (LinComb (DATerm I) (ZMod 2))).getD [])
              (g, gr) (1 : ZMod 2) = [((g, gr), 1)] := by
            simp [lcAddTerm]
          rw [hlc, dictInsert_of_find?_none _ hfnone, List.filter_append,
            filter_nonempty_eq_self hne]
          simp
        have hstep : identityDADeltaStep m d g = some s1 := by
          rw [identityDADeltaStep, if_neg (by simp [hidem'])]
          rw [hfl, hfr]
          exact haddelta
        rw [hstep]
        show List.foldlM (identityDADeltaStep m) s1 rest = _
        have hihres := ih s1
          (fun idem => by rw [hpar idem, hid1])
          (List.nodup_cons.mp hnd).2
          (by
            rw [hact2]
            intro kv hkv
            rcases List.mem_append.mp hkv with hkv | hkv
            · exact hne kv hkv
            · rw [List.mem_singleton] at hkv
              subst hkv
              simp)
          (by
            rw [hact2]
            intro kv hkv g' hg'
            rcases List.mem_append.mp hkv with hkv | hkv
            · exact hkeys kv hkv g' (List.mem_cons_of_mem _ hg')
            · rw [List.mem_singleton] at hkv
              subst hkv
              have hgg' : g ≠ g' := fun h => (List.nodup_cons.mp hnd).1 (h ▸ hg')
              simpa using hgg')
          (fun g' hg' => hfind g' (List.mem_cons_of_mem _ hg'))
        rw [hihres, hid1, halg1, halg2, hgens1, hact2]
        rw [List.filter_cons, if_pos (by simp [hidem']), List.map_cons,
          List.append_assoc, List.singleton_append]

/-- Claim C2: for a PMC with duplicate-free idempotents and algebra generator
list whose non-idempotent generators have registered left and right
idempotents, `identityDA` succeeds and returns the structure with exactly one
generator per idempotent — the i-th carrying the i-th idempotent as both
`idem1` and `idem2`, named i — and exactly one operation per non-idempotent
algebra generator `g`: from the generator of `g`'s left idempotent to the
generator of `g`'s right idempotent, with D-side coefficient `g`, A-side input
the one-element tuple `(g,)`, and ring coefficient 1; no operation for
idempotent algebra generators. -/
theorem C2_identityDA {I : Type} [DecidableEq I] (pmc : PMC I)
    (hnd : pmc.idempotents.Nodup)
    (hgnd : pmc.algebra.gens.Nodup)
    (hin : ∀ g ∈ pmc.algebra.gens, g.isIdempotent = false →
      g.getLeftIdem ∈ pmc.idempotents ∧ g.getRightIdem ∈ pmc.idempotents) :
    ∃ d, identityDA pmc = some d ∧
      d.generators = (List.enumFrom 0 pmc.idempotents).map
        (fun p => (⟨0, p.2, p.2, p.1⟩ : SimpleDAGenerator I)) ∧
      d.generators.length = pmc.idempotents.length ∧
      (∀ idem ∈ pmc.idempotents, identityDAGenOf pmc idem ∈ d.generators) ∧
      d.da_action = (pmc.algebra.gens.filter (fun g => !g.isIdempotent)).map
        (fun g => ((identityDAGenOf pmc g.getLeftIdem, [g]),
                   [((g, identityDAGenOf pmc g.getRightIdem), (1 : ZMod 2))])) := by
  obtain ⟨m', hfold1, hout, hinmap⟩ :=
    identityDA_genFold pmc.idempotents 0 []
      (SimpleDAStructure.mk 0 pmc.algebra pmc.algebra [] []) 0 rfl
      (fun g hg => absurd hg (List.not_mem_nil g))
  have hfindOf : ∀ idem ∈ pmc.idempotents,
      dictFind? m' idem = some (identityDAGenOf pmc idem) := by
    intro idem hmem
    rw [hinmap hnd idem hmem, identityDAGenOf, Nat.zero_add]
  set dastr1 : SimpleDAStructure I (ZMod 2) :=
    SimpleDAStructure.mk 0 pmc.algebra pmc.algebra
      ([] ++ (List.enumFrom 0 pmc.idempotents).map
        (fun p => (⟨0, p.2, p.2, p.1⟩ : SimpleDAGenerator I))) [] with hd1
  have hfold2 := identityDA_deltaFold m' (identityDAGenOf pmc)
    (fun idem => ⟨rfl, rfl⟩) pmc.algebra.gens dastr1
    (fun idem => rfl)
    hgnd
    (fun kv hkv => absurd hkv (List.not_mem_nil kv))
    (fun kv hkv g' hg' => absurd hkv (List.not_mem_nil kv))
    (fun g hg hgi => ⟨hfindOf _ ((hin g hg hgi).1), hfindOf _ ((hin g hg hgi).2)⟩)
  refine ⟨SimpleDAStructure.mk 0 pmc.algebra pmc.algebra
      ((List.enumFrom 0 pmc.idempotents).map
        (fun p => (⟨0, p.2, p.2, p.1⟩ : SimpleDAGenerator I)))
      ((pmc.algebra.gens.filter (fun g => !g.isIdempotent)).map
        (fun g => ((identityDAGenOf pmc g.getLeftIdem, [g]),
                   [((g, identityDAGenOf pmc g.getRightIdem), (1 : ZMod 2))]))),
    ?_, rfl, ?_, ?_, rfl⟩
  · simp only [identityDA]
    rw [show pmc.idempotents.enum = List.enumFrom 0 pmc.idempotents from rfl, hfold1]
    show pmc.algebra.gens.foldlM (identityDADeltaStep m') dastr1 = _
    rw [hfold2]
    rfl
  · rw [List.length_map, List.enumFrom_length]
  · intro idem hmem
    have hj := List.indexOf_lt_length.mpr hmem
    refine List.mem_iff_getElem.mpr ⟨pmc.idempotents.indexOf idem, ?_, ?_⟩
    · rw [List.length_map, List.enumFrom_length]
      exact hj
    · rw [List.getElem_map, List.getElem_enumFrom]
      have hidx : pmc.idempotents[pmc.idempotents.indexOf idem] = idem := by
        have := List.indexOf_get hj
        simpa [List.get_eq_getElem] using this
      rw [identityDAGenOf]
      simp only [hidx, Nat.zero_add]

def c2PMC : PMC Nat :=
  ⟨⟨[⟨0, 0, [0], true, 0⟩, ⟨1, 1, [0], true, 1⟩, ⟨0, 1, [1], false, 2⟩], true⟩, [0, 1]⟩

theorem C2_witness :
    ∃ d, identityDA c2PMC = some d ∧
      d.generators = (List.enumFrom 0 c2PMC.idempotents).map
        (fun p => (⟨0, p.2, p.2, p.1⟩ : SimpleDAGenerator Nat)) ∧
      d.generators.length = c2PMC.idempotents.length ∧
      (∀ idem ∈ c2PMC.idempotents, identityDAGenOf c2PMC idem ∈ d.generators) ∧
      d.da_action = (c2PMC.algebra.gens.filter (fun g => !g.isIdempotent)).map
        (fun g => ((identityDAGenOf c2PMC g.getLeftIdem, [g]),
                   [((g, identityDAGenOf c2PMC g.getRightIdem), (1 : ZMod 2))])) :=
  C2_identityDA c2PMC (by decide) (by decide) (by decide)


/-- An idempotent chain through a list of algebra generators: each generator's
left idempotent is the running idempotent and its right idempotent advances
it, ending at the given final idempotent. -/
def sdChain {I : Type} : I → List (AlgGen I) → I → Prop
  | cur, [], fin => cur = fin
  | cur, a :: rest, fin => a.leftIdem = cur ∧ sdChain a.rightIdem rest fin

theorem propagateSequence_sdChain {I : Type} [DecidableEq I] :
    ∀ (cas : List (Strands I)) (cur : I) (alg_a : List (AlgGen I)) (fin : I),
      propagateSequence cur cas = some (alg_a, fin) → sdChain cur alg_a fin := by
  intro cas
  induction cas with
  | nil =>
      intro cur alg_a fin h
      rw [propagateSequence, Option.some.injEq] at h
      injection h with h1 h2
      subst h1
      subst h2
      exact rfl
  | cons c rest ih =>
      intro cur alg_a fin h
      rw [propagateSequence] at h
      cases hpr : c.propagateRight cur with
      | none => rw [hpr] at h; simp at h
      | some nxt =>
          rw [hpr] at h
          simp only [Option.bind_eq_bind, Option.some_bind] at h
          have hsd : StrandDiagram c cur =
              some ⟨cur, nxt, c.multiplicity, c.isIdem, c.tag⟩ := by
            simp [StrandDiagram, hpr]
          rw [hsd] at h
          simp only [Option.bind_eq_bind, Option.some_bind] at h
          cases hps : propagateSequence nxt rest with
          | none => rw [hps] at h; simp at h
          | some p =>
              obtain ⟨as', fin'⟩ := p
              rw [hps] at h
              simp only [Option.bind_eq_bind, Option.some_bind] at h
              injection h with h
              injection h with h1 h2
              subst h1
              subst h2
              exact ⟨rfl, ih nxt as' fin' hps⟩

theorem propagateSequence_cons_inv {I : Type} [DecidableEq I] {c : Strands I}
    {rest : List (Strands I)} {cur : I} {alg_a : List (AlgGen I)} {fin : I}
    (h : propagateSequence cur (c :: rest) = some (alg_a, fin)) :
    ∃ nxt as', c.propagateRight cur = some nxt ∧
      propagateSequence nxt rest = some (as', fin) ∧
      alg_a = ⟨cur, nxt, c.multiplicity, c.isIdem, c.tag⟩ :: as' := by
  rw [propagateSequence] at h
  cases hpr : c.propagateRight cur with
  | none => rw [hpr] at h; simp at h
  | some nxt =>
      rw [hpr] at h
      simp only [Option.bind_eq_bind, Option.some_bind] at h
      have hsd : StrandDiagram c cur =
          some ⟨cur, nxt, c.multiplicity, c.isIdem, c.tag⟩ := by
        simp [StrandDiagram, hpr]
      rw [hsd] at h
      simp only [Option.bind_eq_bind, Option.some_bind] at h
      cases hps : propagateSequence nxt rest with
      | none => rw [hps] at h; simp at h
      | some p =>
          obtain ⟨as', fin'⟩ := p
          rw [hps] at h
          simp only [Option.bind_eq_bind, Option.some_bind] at h
          injection h with h
          injection h with h1 h2
          subst h1
          subst h2
          exact ⟨nxt, as', rfl, hps, rfl⟩

theorem propagateSequence_length {I : Type} [DecidableEq I] :
    ∀ (cas : List (Strands I)) (cur : I) (alg_a : List (AlgGen I)) (fin : I),
      propagateSequence cur cas = some (alg_a, fin) → alg_a.length = cas.length := by
  intro cas
  induction cas with
  | nil =>
      intro cur alg_a fin h
      rw [propagateSequence, Option.some.injEq] at h
      injection h with h1 h2
      subst h1
      rfl
  | cons c rest ih =>
      intro cur alg_a fin h
      obtain ⟨nxt, as', -, hps, rfl⟩ := propagateSequence_cons_inv h
      simp [ih nxt as' fin hps]

theorem propagateSequence_take {I : Type} [DecidableEq I] :
    ∀ (cas : List (Strands I)) (cur : I) (alg_a : List (AlgGen I)) (fin : I),
      propagateSequence cur cas = some (alg_a, fin) →
      ∀ i, ∀ hi : i < cas.length, ∀ hi' : i < alg_a.length,
        some ((alg_a.get ⟨i, hi'⟩).leftIdem) =
          (cas.take i).foldlM (fun j c => Strands.propagateRight c j) cur ∧
        Strands.propagateRight (cas.get ⟨i, hi⟩) ((alg_a.get ⟨i, hi'⟩).leftIdem) =
          some ((alg_a.get ⟨i, hi'⟩).rightIdem) ∧
        (alg_a.get ⟨i, hi'⟩).multiplicity = (cas.get ⟨i, hi⟩).multiplicity := by
  intro cas
  induction cas with
  | nil =>
      intro cur alg_a fin h i hi
      exact absurd hi (Nat.not_lt_zero i)
  | cons c rest ih =>
      intro cur alg_a fin h i hi hi'
      obtain ⟨nxt, as', hpr, hps, rfl⟩ := propagateSequence_cons_inv h
      cases i with
      | zero => exact ⟨rfl, by simpa using hpr, rfl⟩
      | succ i =>
          have hi2 : i < rest.length := Nat.lt_of_succ_lt_succ hi
          have hi2' : i < as'.length := Nat.lt_of_succ_lt_succ (by simpa using hi')
          obtain ⟨ha, hb, hcm⟩ := ih nxt as' fin hps i hi2 hi2'
          refine ⟨?_, hb, hcm⟩
          rw [List.take_succ_cons, List.foldlM_cons, hpr]
          simpa using ha

theorem sdChain_parts {I : Type} :
    ∀ (as : List (AlgGen I)) (cur fin : I), sdChain cur as fin →
      ∀ h : as ≠ [],
        (as.head h).leftIdem = cur ∧
        List.Chain' (fun a b => a.rightIdem = b.leftIdem) as ∧
        (as.getLast h).rightIdem = fin := by
  intro as
  induction as with
  | nil =>
      intro cur fin hc h
      exact absurd rfl h
  | cons a rest ih =>
      intro cur fin hc h
      obtain ⟨h1, h2⟩ := hc
      refine ⟨h1, ?_, ?_⟩
      · cases rest with
        | nil => exact List.chain'_singleton a
        | cons b rest' =>
            rw [List.chain'_cons]
            obtain ⟨hh, hch, -⟩ := ih a.rightIdem fin h2 (List.cons_ne_nil _ _)
            rw [List.head_cons] at hh
            exact ⟨hh.symm, hch⟩
      · cases rest with
        | nil =>
            rw [List.getLast_singleton]
            exact h2
        | cons b rest' =>
            rw [List.getLast_cons (List.cons_ne_nil _ _)]
            exact (ih a.rightIdem fin h2 (List.cons_ne_nil _ _)).2.2

theorem sdChain_chainOK {I : Type} [DecidableEq I] (gf gt : SimpleDAGenerator I)
    (as : List (AlgGen I)) (hc : sdChain gf.idem2 as gt.idem2) :
    addDeltaChainOK gf gt as = true := by
  cases as with
  | nil =>
      rw [addDeltaChainOK]
      simpa using hc
  | cons a rest =>
      obtain ⟨hh, hch, hl⟩ := sdChain_parts (a :: rest) _ _ hc (List.cons_ne_nil a rest)
      rw [List.head_cons] at hh
      rw [addDeltaChainOK]
      simp only [Bool.and_eq_true, decide_eq_true_eq]
      exact ⟨⟨hh.symm, hch⟩, hl⟩

/-- The registration condition of claim C3, stated from the claim's words (for
comparison with the source's `addChordPair`): the multiplicity-one
restrictions of the two algebras pass, the D-side chord is
idempotent-compatible with the pair of type D idempotents, and the rightward
walk from `x.idem2` through `coeffs_a` succeeds and ends at `y.idem2`. -/
def chordRegisters {I R : Type} [DecidableEq I] (s : SimpleDAStructure I R)
    (coeff_d : Strands I) (coeffs_a : List (Strands I))
    (x y : SimpleDAGenerator I) : Prop :=
  (s.algebra1.mult_one = true → coeff_d.isMultOne = true) ∧
  (s.algebra2.mult_one = true → ∀ c ∈ coeffs_a, c.isMultOne = true) ∧
  coeff_d.idemCompatible x.idem1 y.idem1 = true ∧
  ∃ alg_a, propagateSequence x.idem2 coeffs_a = some (alg_a, y.idem2)

theorem addChordPair_registers {I R : Type} [DecidableEq I] [AddCommMonoid R] [One R]
    [DecidableEq R] (s : SimpleDAStructure I R) (coeff_d : Strands I)
    (coeffs_a : List (Strands I)) (x y : SimpleDAGenerator I) (alg_a : List (AlgGen I))
    (hm1 : s.algebra1.mult_one = true → coeff_d.isMultOne = true)
    (hm2 : s.algebra2.mult_one = true → ∀ c ∈ coeffs_a, c.isMultOne = true)
    (hcompat : coeff_d.idemCompatible x.idem1 y.idem1 = true)
    (hps : propagateSequence x.idem2 coeffs_a = some (alg_a, y.idem2)) :
    addChordPair coeff_d coeffs_a s x y =
      s.addDelta x y ⟨x.idem1, y.idem1, coeff_d.multiplicity, coeff_d.isIdem, coeff_d.tag⟩
        alg_a (1 : R) := by
  have h1 : (s.algebra1.mult_one && !coeff_d.isMultOne) = false := by
    cases ha : s.algebra1.mult_one with
    | false => simp
    | true => simp [hm1 ha]
  have h2 : (s.algebra2.mult_one && !(coeffs_a.all (fun c => c.isMultOne))) = false := by
    cases ha : s.algebra2.mult_one with
    | false => simp
    | true => simp [List.all_eq_true.mpr (hm2 ha)]
  have hpr : coeff_d.propagateRight x.idem1 = some y.idem1 := by
    simpa [Strands.idemCompatible] using hcompat
  have hsd : StrandDiagram coeff_d x.idem1 =
      some ⟨x.idem1, y.idem1, coeff_d.multiplicity, coeff_d.isIdem, coeff_d.tag⟩ := by
    simp [StrandDiagram, hpr]
  rw [addChordPair, if_neg (by simp [h1]), if_neg (by simp [h2]),
    if_neg (by simp [hcompat]), hsd]
  simp only [Option.bind_eq_bind, Option.some_bind]
  rw [hps]
  simp

theorem addChordPair_skip {I R : Type} [DecidableEq I] [AddCommMonoid R] [One R]
    [DecidableEq R] (s : SimpleDAStructure I R) (coeff_d : Strands I)
    (coeffs_a : List (Strands I)) (x y : SimpleDAGenerator I)
    (hnc : ¬ chordRegisters s coeff_d coeffs_a x y) :
    addChordPair coeff_d coeffs_a s x y = some s := by
  rw [addChordPair]
  by_cases h1 : (s.algebra1.mult_one && !coeff_d.isMultOne) = true
  · rw [if_pos h1]
  · rw [if_neg h1]
    by_cases h2 : (s.algebra2.mult_one && !(coeffs_a.all (fun c => c.isMultOne))) = true
    · rw [if_pos h2]
    · rw [if_neg h2]
      by_cases h3 : coeff_d.idemCompatible x.idem1 y.idem1 = true
      · rw [if_neg (by simp [h3])]
        have hc1 : s.algebra1.mult_one = true → coeff_d.isMultOne = true := by
          intro ha
          by_contra hb
          exact h1 (by rw [ha, Bool.eq_false_iff.mpr hb]; rfl)
        have hc2 : s.algebra2.mult_one = true → ∀ c ∈ coeffs_a, c.isMultOne = true := by
          intro ha
          by_contra hb
          push_neg at hb
          obtain ⟨c, hcm, hcb⟩ := hb
          apply h2
          rw [ha]
          have : coeffs_a.all (fun c => c.isMultOne) = false := by
            rw [Bool.eq_false_iff]
            intro hall
            exact hcb (List.all_eq_true.mp hall c hcm)
          rw [this]
          rfl
        have hpr : coeff_d.propagateRight x.idem1 = some y.idem1 := by
          simpa [Strands.idemCompatible] using h3
        have hsd : StrandDiagram coeff_d x.idem1 =
            some ⟨x.idem1, y.idem1, coeff_d.multiplicity, coeff_d.isIdem, coeff_d.tag⟩ := by
          simp [StrandDiagram, hpr]
        rw [hsd]
        simp only [Option.bind_eq_bind, Option.some_bind]
        cases hps : propagateSequence x.idem2 coeffs_a with
        | none => rfl
        | some p =>
            obtain ⟨as0, fin⟩ := p
            have hfin : ¬ (fin = y.idem2) := by
              intro hf
              subst hf
              exact hnc ⟨hc1, hc2, h3, as0, hps⟩
            simp [hfin]
      · rw [if_pos (by simp [h3])]

theorem AddChordToDA_skip {I R : Type} [DecidableEq I] [AddCommMonoid R] [One R]
    [DecidableEq R] (s : SimpleDAStructure I R) (coeff_d : Strands I)
    (coeffs_a : List (Strands I))
    (h : ∀ x ∈ s.generators, ∀ y ∈ s.generators,
      ¬ chordRegisters s coeff_d coeffs_a x y) :
    AddChordToDA s coeff_d coeffs_a = some s := by
  have inner : ∀ (ys : List (SimpleDAGenerator I)) (x : SimpleDAGenerator I),
      (∀ y ∈ ys, ¬ chordRegisters s coeff_d coeffs_a x y) →
      ys.foldlM (fun st2 y => addChordPair coeff_d coeffs_a st2 x y) s = some s := by
    intro ys
    induction ys with
    | nil => intro x h'; rfl
    | cons y ys ih =>
        intro x h'
        rw [List.foldlM_cons, addChordPair_skip s coeff_d coeffs_a x y
          (h' y (List.mem_cons_self _ _))]
        show ys.foldlM (fun st2 y => addChordPair coeff_d coeffs_a st2 x y) s = some s
        exact ih x (fun y' hy' => h' y' (List.mem_cons_of_mem _ hy'))
  have outer : ∀ (xs : List (SimpleDAGenerator I)),
      (∀ x ∈ xs, ∀ y ∈ s.generators, ¬ chordRegisters s coeff_d coeffs_a x y) →
      xs.foldlM (fun st x => s.generators.foldlM
        (fun st2 y => addChordPair coeff_d coeffs_a st2 x y) st) s = some s := by
    intro xs
    induction xs with
    | nil => intro h'; rfl
    | cons x xs ih =>
        intro h'
        rw [List.foldlM_cons, inner s.generators x (h' x (List.mem_cons_self _ _))]
        show xs.foldlM (fun st x => s.generators.foldlM
          (fun st2 y => addChordPair coeff_d coeffs_a st2 x y) st) s = some s
        exact ih (fun x' hx' => h' x' (List.mem_cons_of_mem _ hx'))
  exact outer s.generators h

/-- Claim C3: for every ordered pair `(x, y)` of generators, `AddChordToDA`
registers an operation from `x` to `y` exactly when the multiplicity-one
restrictions pass, `coeff_d` is idempotent-compatible with `(x.idem1,
y.idem1)`, and the rightward walk from `x.idem2` through `coeffs_a` succeeds
and ends at `y.idem2`; the registered operation goes through `addDelta` with
ring coefficient 1, D-side coefficient anchored at `x.idem1` (with right
idempotent `y.idem1`), and A-side coefficients each anchored at the
pre-propagation idempotent of its step; on a parent-correct, well-formed
structure the operation's coefficient is incremented by 1 and the generator
set is untouched. When the condition fails for a pair nothing is added for
it, and when it fails for every pair the whole call leaves the structure
unchanged. -/
theorem C3_AddChordToDA {I R : Type} [DecidableEq I] [AddCommMonoid R] [One R]
    [DecidableEq R] (s : SimpleDAStructure I R) (coeff_d : Strands I)
    (coeffs_a : List (Strands I)) (x y : SimpleDAGenerator I) :
    (∀ alg_a, chordRegisters s coeff_d coeffs_a x y →
      propagateSequence x.idem2 coeffs_a = some (alg_a, y.idem2) →
      (addChordPair coeff_d coeffs_a s x y =
        s.addDelta x y
          ⟨x.idem1, y.idem1, coeff_d.multiplicity, coeff_d.isIdem, coeff_d.tag⟩
          alg_a (1 : R)) ∧
      alg_a.length = coeffs_a.length ∧
      (∀ i, ∀ hi : i < coeffs_a.length, ∀ hi' : i < alg_a.length,
        some ((alg_a.get ⟨i, hi'⟩).leftIdem) =
          (coeffs_a.take i).foldlM (fun j c => Strands.propagateRight c j) x.idem2 ∧
        Strands.propagateRight (coeffs_a.get ⟨i, hi⟩) ((alg_a.get ⟨i, hi'⟩).leftIdem) =
          some ((alg_a.get ⟨i, hi'⟩).rightIdem) ∧
        (alg_a.get ⟨i, hi'⟩).multiplicity = (coeffs_a.get ⟨i, hi⟩).multiplicity) ∧
      (x.parent = s.id → y.parent = s.id → tableWF s →
        ∃ s', addChordPair coeff_d coeffs_a s x y = some s' ∧
          s'.generators = s.generators ∧
          actionCoeff s' (x, alg_a)
              (⟨x.idem1, y.idem1, coeff_d.multiplicity, coeff_d.isIdem, coeff_d.tag⟩, y) =
            actionCoeff s (x, alg_a)
              (⟨x.idem1, y.idem1, coeff_d.multiplicity, coeff_d.isIdem, coeff_d.tag⟩, y)
              + 1)) ∧
    (¬ chordRegisters s coeff_d coeffs_a x y →
      addChordPair coeff_d coeffs_a s x y = some s) ∧
    ((∀ x' ∈ s.generators, ∀ y' ∈ s.generators,
        ¬ chordRegisters s coeff_d coeffs_a x' y') →
      AddChordToDA s coeff_d coeffs_a = some s) := by
  refine ⟨?_, addChordPair_skip s coeff_d coeffs_a x y,
    AddChordToDA_skip s coeff_d coeffs_a⟩
  intro alg_a hreg hps
  obtain ⟨hm1, hm2, hcompat, -⟩ := hreg
  have heq := addChordPair_registers s coeff_d coeffs_a x y alg_a hm1 hm2 hcompat hps
  refine ⟨heq, propagateSequence_length coeffs_a x.idem2 alg_a y.idem2 hps,
    propagateSequence_take coeffs_a x.idem2 alg_a y.idem2 hps, ?_⟩
  intro hx hy hwf
  have hchain : addDeltaChainOK x y alg_a = true :=
    sdChain_chainOK x y alg_a (propagateSequence_sdChain coeffs_a x.idem2 alg_a y.idem2 hps)
  have hsome : (s.addDelta x y
      ⟨x.idem1, y.idem1, coeff_d.multiplicity, coeff_d.isIdem, coeff_d.tag⟩
      alg_a (1 : R)).isSome := by
    rw [addDelta_isSome_iff]
    exact ⟨⟨hx, hy⟩, rfl, rfl, hchain⟩
  obtain ⟨s', haddelta⟩ := Option.isSome_iff_exists.mp hsome
  refine ⟨s', by rw [heq]; exact haddelta, (addDelta_eq haddelta).2.2.2.1, ?_⟩
  rw [actionCoeff_addDelta hwf haddelta]
  simp

def c3Chord : Strands Nat := ⟨7, true, [1], false, [(0, 1)]⟩

def c3X : SimpleDAGenerator Nat := ⟨0, 0, 0, 0⟩

def c3Y : SimpleDAGenerator Nat := ⟨0, 1, 1, 1⟩

def c3S : SimpleDAStructure Nat (ZMod 2) :=
  ⟨0, ⟨[], false⟩, ⟨[], false⟩, [c3X, c3Y], []⟩

def c3SD : AlgGen Nat := ⟨0, 1, [1], false, 7⟩

theorem C3_witness :
    (addChordPair c3Chord [c3Chord] c3S c3X c3Y =
      c3S.addDelta c3X c3Y ⟨c3X.idem1, c3Y.idem1, c3Chord.multiplicity,
        c3Chord.isIdem, c3Chord.tag⟩ [c3SD] (1 : ZMod 2)) ∧
    ([c3SD] : List (AlgGen Nat)).length = ([c3Chord] : List (Strands Nat)).length ∧
    (∀ i, ∀ hi : i < ([c3Chord] : List (Strands Nat)).length,
      ∀ hi' : i < ([c3SD] : List (AlgGen Nat)).length,
      some ((([c3SD] : List (AlgGen Nat)).get ⟨i, hi'⟩).leftIdem) =
        (([c3Chord] : List (Strands Nat)).take i).foldlM
          (fun j c => Strands.propagateRight c j) c3X.idem2 ∧
      Strands.propagateRight (([c3Chord] : List (Strands Nat)).get ⟨i, hi⟩)
          ((([c3SD] : List (AlgGen Nat)).get ⟨i, hi'⟩).leftIdem) =
        some ((([c3SD] : List (AlgGen Nat)).get ⟨i, hi'⟩).rightIdem) ∧
      ((([c3SD] : List (AlgGen Nat)).get ⟨i, hi'⟩)).multiplicity =
        (([c3Chord] : List (Strands Nat)).get ⟨i, hi⟩).multiplicity) ∧
    (c3X.parent = c3S.id → c3Y.parent = c3S.id → tableWF c3S →
      ∃ s', addChordPair c3Chord [c3Chord] c3S c3X c3Y = some s' ∧
        s'.generators = c3S.generators ∧
        actionCoeff s' (c3X, [c3SD])
            (⟨c3X.idem1, c3Y.idem1, c3Chord.multiplicity, c3Chord.isIdem, c3Chord.tag⟩, c3Y) =
          actionCoeff c3S (c3X, [c3SD])
            (⟨c3X.idem1, c3Y.idem1, c3Chord.multiplicity, c3Chord.isIdem, c3Chord.tag⟩, c3Y)
            + 1) :=
  (C3_AddChordToDA c3S c3Chord [c3Chord] c3X c3Y).1 [c3SD]
    ⟨by decide, by decide, by decide, ⟨[c3SD], by decide⟩⟩ (by decide)
